import Mathlib

/-!
# Verification of the chunked in-place UTF-8 line reverser

Shallow embedding of the core of the `file-reverser` repository:

* `reverse_range` — the two-pass in-place code-point reversal primitive
  (`src/unnamed/part_005`, namespace `file_reverser::utilities`, identical copies
  in `src/include/file_reverser.h` and `src/unnamed/part_006`);
* the segment processor `reverse_segment` with its carry protocol
  (`src/unnamed/part_005`, namespace `file_reverser::utilities::st`:
  `handle_carry`, `handle_carry_eof`, `reverse_seg_recent`, `reverse_segment`),
  the version the single-threaded driver `src/src/baseline/file_reverser.cpp` calls;
* the driver loop of `src/src/baseline/file_reverser.cpp` (read `buf_size` bytes,
  process, gather-write the returned job, final call with a zero-length read);
* the SPSC lock-free ring queue `SPSC_LFQ` (`src/unnamed/part_005`), under the
  sequential single-producer/single-consumer contract.

Buffers (`std::byte*` regions) are represented by `List Nat` holding the byte
values of the whole allocation; `Segment` keeps the source's `(buff_, len_, off_)`
descriptor shape.  In-place writes become list splices (`writeNats`), and the
spans handed to `reverse_range` become the corresponding sublists.
-/

namespace FileReverser

/-- `is_cont` from the source: `(u8(b) & 0xC0u) == 0x80u`. -/
def is_cont (b : Nat) : Bool := b &&& 0xC0 == 0x80

/-- `is_lead` from the source: valid UTF-8 leading byte range, `0xC2 ≤ b ≤ 0xF4`. -/
def is_lead (b : Nat) : Bool := 0xC2 ≤ b && b ≤ 0xF4

/-- Second pass of `reverse_range`, acting on the byte-reversed slice.  The C
loop scans left to right: a non-continuation byte is skipped; at a continuation
byte it scans the run of continuations, demands the terminating byte be a valid
lead (else returns `false` leaving the remainder of the slice untouched), and
reverses `[start, lead]` in place, i.e. replaces `run ++ [lead]` by
`lead :: run.reverse`.  The index-based scan is embedded structurally: `acc`
holds the current continuation run in reversed order (so `run = acc.reverse`),
mirroring the `start ≤ i` window of the C loop.  The `Bool` is the success
flag; the list is the slice's final contents (on failure: the bytes already
processed, followed by the unprocessed remainder as the C code leaves them). -/
def repairAux : List Nat → List Nat → Bool × List Nat
  | acc, [] => if acc.isEmpty then (true, []) else (false, acc.reverse)
  | acc, b :: bs =>
    if is_cont b then repairAux (b :: acc) bs
    else if acc.isEmpty then
      let r := repairAux [] bs
      (r.1, b :: r.2)
    else if is_lead b then
      let r := repairAux [] bs
      (r.1, b :: acc ++ r.2)
    else (false, acc.reverse ++ b :: bs)

/-- The repair pass, started outside any continuation run. -/
def repair (l : List Nat) : Bool × List Nat := repairAux [] l

/-- `reverse_range(buf, from, to)` from the source: reverse the raw bytes of
`[from, to)`, then repair multi-byte sequences; bytes outside the range are
untouched.  Returns the success flag and the whole buffer's final contents. -/
def reverse_range (buf : List Nat) (f t : Nat) : Bool × List Nat :=
  if t ≤ f then (true, buf)
  else
    let s := (buf.drop f).take (t - f)
    let r := repair s.reverse
    (r.1, buf.take f ++ r.2 ++ buf.drop t)

/-! ## UTF-8 encoding (specification side)

The spec describes inputs as sequences of Unicode code points.  `encOne` is the
standard UTF-8 encoder for a scalar value; `encAll` encodes a code-point list.
These definitions are the reference against which the byte-level primitive is
judged; they are not part of the C source. -/

/-- UTF-8 encoding of one code point (1–4 bytes). -/
def encOne (c : Nat) : List Nat :=
  if c < 0x80 then [c]
  else if c < 0x800 then [0xC0 + c / 64, 0x80 + c % 64]
  else if c < 0x10000 then [0xE0 + c / 4096, 0x80 + (c / 64) % 64, 0x80 + c % 64]
  else [0xF0 + c / 262144, 0x80 + (c / 4096) % 64, 0x80 + (c / 64) % 64, 0x80 + c % 64]

/-- UTF-8 encoding of a code-point sequence. -/
def encAll (cps : List Nat) : List Nat := (cps.map encOne).flatten

/-- A Unicode scalar bound: the code points the encoder's 4-byte branch keeps
inside the valid lead range `[0xC2, 0xF4]`. -/
def ScalarCp (c : Nat) : Prop := c < 0x110000

instance (c : Nat) : Decidable (ScalarCp c) := by unfold ScalarCp; infer_instance

/-! ### Nat classification facts -/

set_option maxRecDepth 4096 in
theorem is_cont_iff (b : Nat) (hb : b < 256) :
    is_cont b = true ↔ 128 ≤ b ∧ b < 192 := by
  revert hb; revert b; decide

theorem is_cont_cont_byte (m : Nat) (hm : m < 64) : is_cont (0x80 + m) = true := by
  have h := is_cont_iff (0x80 + m) (by omega)
  rw [h]; omega

theorem is_cont_ascii (c : Nat) (h : c < 0x80) : is_cont c = false := by
  by_contra hc
  have h1 := (is_cont_iff c (by omega)).mp (by revert hc; cases is_cont c <;> simp)
  omega

theorem is_lead_iff (b : Nat) : is_lead b = true ↔ 0xC2 ≤ b ∧ b ≤ 0xF4 := by
  simp [is_lead, Bool.and_eq_true, decide_eq_true_eq]

theorem is_cont_of_ge_192 (b : Nat) (h1 : 192 ≤ b) (h2 : b < 256) :
    is_cont b = false := by
  by_contra hc
  have h3 := (is_cont_iff b h2).mp (by revert hc; cases is_cont b <;> simp)
  omega

/-! ### Structure of encoded code points -/

theorem encOne_ascii (c : Nat) (h : c < 0x80) : encOne c = [c] := by
  simp [encOne, h]

theorem encOne_ne_nil (c : Nat) : encOne c ≠ [] := by
  unfold encOne
  split
  · simp
  · split
    · simp
    · split <;> simp

theorem encAll_append (l₁ l₂ : List Nat) :
    encAll (l₁ ++ l₂) = encAll l₁ ++ encAll l₂ := by
  simp [encAll]

theorem encAll_cons (c : Nat) (l : List Nat) :
    encAll (c :: l) = encOne c ++ encAll l := by
  simp [encAll]

theorem encAll_nil : encAll [] = [] := rfl

theorem encAll_eq_nil_iff (l : List Nat) : encAll l = [] ↔ l = [] := by
  cases l with
  | nil => simp [encAll]
  | cons c l =>
    rw [encAll_cons]
    simp only [List.append_eq_nil]
    exact ⟨fun h => absurd h.1 (encOne_ne_nil c), fun h => by simp at h⟩

/-- Every multi-byte encoding is a valid lead followed by a nonempty run of
continuation bytes. -/
theorem encOne_multi (c : Nat) (h1 : 0x80 ≤ c) (h2 : ScalarCp c) :
    ∃ L cs, encOne c = L :: cs ∧ cs ≠ [] ∧ (∀ b ∈ cs, is_cont b = true) ∧
      is_lead L = true ∧ is_cont L = false := by
  unfold ScalarCp at h2
  unfold encOne
  rw [if_neg (by omega)]
  by_cases hc8 : c < 0x800
  · rw [if_pos hc8]
    refine ⟨_, _, rfl, by simp, ?_, ?_, ?_⟩
    · intro b hb
      simp only [List.mem_singleton] at hb
      subst hb
      exact is_cont_cont_byte _ (Nat.mod_lt _ (by omega))
    · rw [is_lead_iff]
      have : 2 ≤ c / 64 := Nat.le_div_iff_mul_le (by omega) |>.mpr (by omega)
      have : c / 64 < 32 := Nat.div_lt_iff_lt_mul (by omega) |>.mpr (by omega)
      omega
    · exact is_cont_of_ge_192 _ (by omega)
        (by have : c / 64 < 32 := Nat.div_lt_iff_lt_mul (by omega) |>.mpr (by omega); omega)
  · rw [if_neg hc8]
    by_cases hc16 : c < 0x10000
    · rw [if_pos hc16]
      refine ⟨_, _, rfl, by simp, ?_, ?_, ?_⟩
      · intro b hb
        simp only [List.mem_cons, List.mem_singleton, List.not_mem_nil, or_false] at hb
        rcases hb with rfl | rfl <;> exact is_cont_cont_byte _ (Nat.mod_lt _ (by omega))
      · rw [is_lead_iff]
        have : c / 4096 < 16 := Nat.div_lt_iff_lt_mul (by omega) |>.mpr (by omega)
        omega
      · exact is_cont_of_ge_192 _ (by omega)
          (by have : c / 4096 < 16 := Nat.div_lt_iff_lt_mul (by omega) |>.mpr (by omega); omega)
    · rw [if_neg hc16]
      refine ⟨_, _, rfl, by simp, ?_, ?_, ?_⟩
      · intro b hb
        simp only [List.mem_cons, List.mem_singleton, List.not_mem_nil, or_false] at hb
        rcases hb with rfl | rfl | rfl <;> exact is_cont_cont_byte _ (Nat.mod_lt _ (by omega))
      · rw [is_lead_iff]
        have : c / 262144 < 5 := Nat.div_lt_iff_lt_mul (by omega) |>.mpr (by omega)
        omega
      · exact is_cont_of_ge_192 _ (by omega)
          (by have : c / 262144 < 5 := Nat.div_lt_iff_lt_mul (by omega) |>.mpr (by omega); omega)

/-! ### Behaviour of the repair pass -/

/-- Scanning a run of continuation bytes accumulates them (reversed). -/
theorem repairAux_conts (run : List Nat) (h : ∀ x ∈ run, is_cont x = true) :
    ∀ acc bs, repairAux acc (run ++ bs) = repairAux (run.reverse ++ acc) bs := by
  induction run with
  | nil => intro acc bs; simp
  | cons r rs ih =>
    intro acc bs
    have hr : is_cont r = true := h r (by simp)
    have hrs : ∀ x ∈ rs, is_cont x = true := fun x hx => h x (by simp [hx])
    simp only [List.cons_append, repairAux, hr, if_pos, List.append_eq]
    rw [ih hrs (r :: acc) bs]
    simp

theorem repair_nil : repair [] = (true, []) := rfl

theorem repair_cons_not_cont (b : Nat) (bs : List Nat) (h : is_cont b = false) :
    repair (b :: bs) = ((repair bs).1, b :: (repair bs).2) := by
  simp [repair, repairAux, h]

/-- One reversed code point at the front of the slice is repaired back and the
scan continues after it. -/
theorem repair_unit (c : Nat) (hc : ScalarCp c) (rest : List Nat) :
    repair ((encOne c).reverse ++ rest) = ((repair rest).1, encOne c ++ (repair rest).2) := by
  by_cases ha : c < 0x80
  · rw [encOne_ascii c ha]
    simp only [List.reverse_singleton, List.singleton_append]
    rw [repair_cons_not_cont c rest (is_cont_ascii c ha)]
  · obtain ⟨L, cs, henc, hcs, hcont, hlead, hLnotcont⟩ :=
      encOne_multi c (by omega) hc
    rw [henc]
    simp only [List.reverse_cons]
    have hrev : ∀ x ∈ cs.reverse, is_cont x = true := by
      intro x hx; exact hcont x (List.mem_reverse.mp hx)
    have key : cs.reverse ++ [L] ++ rest = cs.reverse ++ (L :: rest) := by simp
    rw [key]
    show repairAux [] (cs.reverse ++ (L :: rest)) = _
    rw [repairAux_conts cs.reverse hrev [] (L :: rest)]
    simp only [List.reverse_reverse, List.append_nil]
    have hne : cs.isEmpty = false := by
      cases cs with
      | nil => exact absurd rfl hcs
      | cons x xs => rfl
    simp only [repairAux, hLnotcont, hne, hlead, Bool.false_eq_true, if_neg, if_pos,
      Bool.not_eq_true]
    simp [repair]

/-- The whole reversed encoding of a scalar sequence is repaired to the encoding
of the reversed sequence, with success. -/
theorem repair_encAll_rev_gen (cps : List Nat) (h : ∀ c ∈ cps, ScalarCp c) :
    ∀ rest, repair ((encAll cps).reverse ++ rest) =
      ((repair rest).1, encAll cps.reverse ++ (repair rest).2) := by
  induction cps with
  | nil => intro rest; simp [encAll_nil]
  | cons c cps ih =>
    intro rest
    have hc : ScalarCp c := h c (by simp)
    have hcps : ∀ x ∈ cps, ScalarCp x := fun x hx => h x (by simp [hx])
    rw [encAll_cons]
    simp only [List.reverse_append, List.append_assoc]
    rw [ih hcps ((encOne c).reverse ++ rest)]
    rw [repair_unit c hc rest]
    have : encAll (c :: cps).reverse = encAll cps.reverse ++ encOne c := by
      simp only [List.reverse_cons]
      rw [encAll_append]
      simp [encAll_cons, encAll_nil]
    rw [this]
    simp

theorem repair_encAll_rev (cps : List Nat) (h : ∀ c ∈ cps, ScalarCp c) :
    repair (encAll cps).reverse = (true, encAll cps.reverse) := by
  have h1 := repair_encAll_rev_gen cps h []
  simpa [repair_nil] using h1

theorem repairAux_length (l : List Nat) :
    ∀ acc, (repairAux acc l).2.length = acc.length + l.length := by
  induction l with
  | nil =>
    intro acc
    cases acc with
    | nil => simp [repairAux]
    | cons a as => simp [repairAux]
  | cons b bs ih =>
    intro acc
    by_cases hc : is_cont b
    · simp only [repairAux, hc, if_pos]
      rw [ih (b :: acc)]
      simp; omega
    · cases acc with
      | nil =>
        simp only [repairAux, hc, Bool.false_eq_true, if_neg, not_false_iff, List.isEmpty_nil,
          if_pos]
        simp [ih []]
      | cons a as =>
        simp only [repairAux, hc, Bool.false_eq_true, if_neg, not_false_iff,
          List.isEmpty_cons, if_neg]
        by_cases hl : is_lead b
        · simp only [hl, if_pos]
          simp [ih []]; omega
        · simp only [hl, Bool.false_eq_true, if_neg, not_false_iff]
          simp; omega

theorem repair_length (l : List Nat) : (repair l).2.length = l.length := by
  simpa using repairAux_length l []

theorem repairAux_perm (l : List Nat) :
    ∀ acc, (repairAux acc l).2.Perm (acc.reverse ++ l) := by
  induction l with
  | nil =>
    intro acc
    cases acc with
    | nil => simp [repairAux]
    | cons a as => simp [repairAux]
  | cons b bs ih =>
    intro acc
    by_cases hc : is_cont b
    · simp only [repairAux, hc, if_pos]
      refine (ih (b :: acc)).trans ?_
      simp only [List.reverse_cons, List.append_assoc]
      exact List.Perm.append_left _ (by simp)
    · cases acc with
      | nil =>
        simp only [repairAux, hc, Bool.false_eq_true, if_neg, not_false_iff, List.isEmpty_nil,
          if_pos]
        have h1 := ih []
        simp only [List.reverse_nil, List.nil_append] at h1
        simpa using h1.cons b
      | cons a as =>
        simp only [repairAux, hc, Bool.false_eq_true, if_neg, not_false_iff,
          List.isEmpty_cons, if_neg]
        by_cases hl : is_lead b
        · simp only [hl, if_pos]
          have h1 := ih []
          simp only [List.reverse_nil, List.nil_append] at h1
          have h2 : (b :: (a :: as) ++ (repairAux [] bs).2).Perm (b :: (a :: as) ++ bs) :=
            List.Perm.cons b (List.Perm.append_left _ h1)
          refine h2.trans ?_
          have h3 : (b :: ((a :: as) ++ bs)).Perm ((a :: as) ++ b :: bs) :=
            List.perm_middle.symm
          refine h3.trans (List.Perm.append_right _ ?_)
          exact (List.reverse_perm (a :: as)).symm
        · simp only [hl, Bool.false_eq_true, if_neg, not_false_iff]
          exact List.Perm.refl _

theorem repair_perm (l : List Nat) : (repair l).2.Perm l := by
  simpa using repairAux_perm l []

/-! ### Properties of `reverse_range` -/

/-- C5 core: on a range holding exactly the encoding of a scalar sequence, the
primitive succeeds and leaves the encoding of the reversed sequence, bytes
outside the range untouched. -/
theorem reverse_range_encAll (pre post : List Nat) (cps : List Nat)
    (h : ∀ c ∈ cps, ScalarCp c) :
    reverse_range (pre ++ encAll cps ++ post) pre.length
        (pre.length + (encAll cps).length) =
      (true, pre ++ encAll cps.reverse ++ post) := by
  by_cases hne : encAll cps = []
  · have hcps : cps = [] := (encAll_eq_nil_iff cps).mp hne
    subst hcps
    simp [reverse_range, encAll_nil]
  · have hpos : 0 < (encAll cps).length := List.length_pos.mpr hne
    unfold reverse_range
    rw [if_neg (by omega)]
    have hdrop : (pre ++ encAll cps ++ post).drop pre.length = encAll cps ++ post := by
      rw [List.append_assoc, List.drop_left]
    have htake : ((pre ++ encAll cps ++ post).drop pre.length).take
        (pre.length + (encAll cps).length - pre.length) = encAll cps := by
      rw [hdrop]
      have : pre.length + (encAll cps).length - pre.length = (encAll cps).length := by omega
      rw [this, List.take_left]
    simp only [htake]
    rw [repair_encAll_rev cps h]
    have htakef : (pre ++ encAll cps ++ post).take pre.length = pre := by
      rw [List.append_assoc, List.take_left]
    have hdropt : (pre ++ encAll cps ++ post).drop (pre.length + (encAll cps).length) = post := by
      rw [List.append_assoc, ← List.length_append pre (encAll cps), ← List.append_assoc,
        List.drop_left]
    rw [htakef, hdropt]

/-- The result of `reverse_range` always has the buffer's length (when the range
lies inside the buffer). -/
theorem reverse_range_length (buf : List Nat) (f t : Nat)
    (ht : t ≤ buf.length) : (reverse_range buf f t).2.length = buf.length := by
  unfold reverse_range
  by_cases h : t ≤ f
  · simp [h]
  · rw [if_neg h]
    simp only [List.length_append, repair_length, List.length_reverse, List.length_take,
      List.length_drop]
    omega

/-- Frame property: bytes outside `[from, to)` are never touched, success or
failure. -/
theorem reverse_range_frame (buf : List Nat) (f t : Nat) (ht : t ≤ buf.length) :
    (reverse_range buf f t).2.take f = buf.take f ∧
      (reverse_range buf f t).2.drop t = buf.drop t := by
  unfold reverse_range
  by_cases h : t ≤ f
  · simp [h]
  · rw [if_neg h]
    simp only []
    have hlen : (buf.take f).length = f := by
      rw [List.length_take]; omega
    constructor
    · have h1 := List.take_left (buf.take f)
        ((repair (((buf.drop f).take (t - f)).reverse)).2 ++ buf.drop t)
      rw [hlen] at h1
      rw [List.append_assoc]
      exact h1
    · have hlen2 : ((buf.take f) ++ (repair (((buf.drop f).take (t - f)).reverse)).2).length
          = t := by
        simp only [List.length_append, List.length_take, repair_length, List.length_reverse,
          List.length_drop]
        omega
      have h1 := List.drop_left
        ((buf.take f) ++ (repair (((buf.drop f).take (t - f)).reverse)).2) (buf.drop t)
      rw [hlen2] at h1
      exact h1

/-- The range's bytes are permuted (never lost or invented), success or
failure. -/
theorem reverse_range_perm (buf : List Nat) (f t : Nat) (ht : t ≤ buf.length) :
    (((reverse_range buf f t).2.drop f).take (t - f)).Perm
      ((buf.drop f).take (t - f)) := by
  by_cases h : t ≤ f
  · unfold reverse_range
    rw [if_pos h]
  · unfold reverse_range
    rw [if_neg h]
    simp only []
    have hlen : (buf.take f).length = f := by rw [List.length_take]; omega
    have hlen2 : (repair (((buf.drop f).take (t - f)).reverse)).2.length = t - f := by
      simp only [repair_length, List.length_reverse, List.length_take, List.length_drop]
      omega
    have h1 := List.drop_left (buf.take f)
      ((repair (((buf.drop f).take (t - f)).reverse)).2 ++ buf.drop t)
    rw [hlen] at h1
    rw [List.append_assoc, h1]
    have h2 := List.take_left (repair (((buf.drop f).take (t - f)).reverse)).2 (buf.drop t)
    rw [hlen2] at h2
    rw [h2]
    refine (repair_perm _).trans ?_
    exact List.reverse_perm _

/-- A nonempty range consisting solely of continuation bytes fails: the scan's
continuation run reaches `to` without finding a lead. -/
theorem reverse_range_allcont_false (pre post s : List Nat) (hne : s ≠ [])
    (hcont : ∀ b ∈ s, is_cont b = true) :
    (reverse_range (pre ++ s ++ post) pre.length (pre.length + s.length)).1 = false := by
  have hpos : 0 < s.length := List.length_pos.mpr hne
  unfold reverse_range
  rw [if_neg (by omega)]
  have hdrop : (pre ++ s ++ post).drop pre.length = s ++ post := by
    rw [List.append_assoc, List.drop_left]
  have htake : ((pre ++ s ++ post).drop pre.length).take
      (pre.length + s.length - pre.length) = s := by
    rw [hdrop]
    have : pre.length + s.length - pre.length = s.length := by omega
    rw [this, List.take_left]
  simp only [htake]
  have hrev : ∀ x ∈ s.reverse, is_cont x = true := fun x hx => hcont x (List.mem_reverse.mp hx)
  show (repairAux [] s.reverse).1 = false
  have h1 : s.reverse ++ ([] : List Nat) = s.reverse := by simp
  rw [← h1, repairAux_conts s.reverse hrev [] []]
  have : s.reverse.reverse ++ ([] : List Nat) = s := by simp
  rw [this]
  cases s with
  | nil => exact absurd rfl hne
  | cons a as => rfl

/-- Failure implies the range's bytes are not the encoding of any scalar
sequence (contrapositive of `reverse_range_encAll`). -/
theorem reverse_range_false_not_encAll (pre post : List Nat) (cps : List Nat)
    (h : ∀ c ∈ cps, ScalarCp c) :
    (reverse_range (pre ++ encAll cps ++ post) pre.length
      (pre.length + (encAll cps).length)).1 = true := by
  rw [reverse_range_encAll pre post cps h]

/-- Only ASCII code points encode to a single byte. -/
theorem encAll_singleton_lt (cps : List Nat) (b : Nat) (h : encAll cps = [b]) :
    b < 0x80 := by
  cases cps with
  | nil => simp [encAll_nil] at h
  | cons c cs =>
    rw [encAll_cons] at h
    cases cs with
    | cons c2 cs2 =>
      exfalso
      have h1 : 1 ≤ (encOne c).length := by
        cases hh : encOne c with
        | nil => exact absurd hh (encOne_ne_nil c)
        | cons x xs => simp
      have h2 : 1 ≤ (encOne c2).length := by
        cases hh : encOne c2 with
        | nil => exact absurd hh (encOne_ne_nil c2)
        | cons x xs => simp
      have h3 := congrArg List.length h
      rw [encAll_cons] at h3
      simp only [List.length_append, List.length_cons, List.length_nil] at h3
      omega
    | nil =>
      simp only [encAll_nil, List.append_nil] at h
      by_contra hb
      have hge : 0x80 ≤ c := by
        by_contra hc
        rw [encOne_ascii c (by omega)] at h
        have : c = b := by simpa using h
        omega
      unfold encOne at h
      rw [if_neg (by omega)] at h
      by_cases h8 : c < 0x800
      · rw [if_pos h8] at h; simp at h
      · rw [if_neg h8] at h
        by_cases h16 : c < 0x10000
        · rw [if_pos h16] at h; simp at h
        · rw [if_neg h16] at h; simp at h

/-! ## Segments, jobs and the `utilities::st` processor

`Segment` mirrors the C struct: `buff_` is the full buffer contents, `len_` the
count of valid bytes, `off_` their start.  `Job` holds the `seg_` entries in
emission order (`seg_count_` is its length).  `writeNats dst pos src` embeds
`memcpy(dst + pos, src, src.length)`; `findLF l` embeds
`memchr(l, '\n', l.length)`. -/

structure Segment where
  buff : List Nat
  len : Nat
  off : Nat
deriving Repr, DecidableEq

structure Job where
  segs : List Segment
deriving Repr, DecidableEq

/-- The valid bytes a segment describes: `buff_[off_ .. off_ + len_)`. -/
def segData (s : Segment) : List Nat := (s.buff.drop s.off).take s.len

/-- The bytes a job's writer emits: each segment's data in order. -/
def jobBytes (j : Job) : List Nat := (j.segs.map segData).flatten

/-- `memcpy(dst + pos, src, src.length)` on a buffer. -/
def writeNats (dst : List Nat) (pos : Nat) (src : List Nat) : List Nat :=
  dst.take pos ++ src ++ dst.drop (pos + src.length)

/-- `memchr(l, '\n', l.length)`: index of the first `0x0A`. -/
def findLF (l : List Nat) : Option Nat := l.findIdx? (· == 10)

/-- Processor state threaded through one `reverse_segment` call: the input
segment, the carry, the worker-private carry backup and the job being built. -/
structure StState where
  seg : Segment
  carry : Segment
  backup : Segment
  job : Job
deriving Repr, DecidableEq

/-- `utilities::st::handle_carry` (`src/unnamed/part_005`): attach the prefix of
the fresh chunk up to and including its first LF (at absolute index `i`) to the
carry, reverse the carry's content excluding the terminator (one byte for LF,
two for CRLF), emit the carry, reset it and swap it with the backup, and
advance the input segment past the prefix. -/
def handle_carry (i : Nat) (st : StState) : StState :=
  let prefixSize := i + 1
  let cb1 := writeNats st.carry.buff st.carry.len (st.seg.buff.take prefixSize)
  let clen1 := st.carry.len + prefixSize
  let to0 := if 1 ≤ clen1 then clen1 - 1 else 0
  let to1 := if 0 < to0 ∧ cb1.getD (to0 - 1) 0 = 13 then to0 - 1 else to0
  let rr := if 0 < to1 then reverse_range (cb1.take clen1) 0 to1 else (true, cb1.take clen1)
  let cb2 := rr.2 ++ cb1.drop clen1
  let emitted : Segment := ⟨cb2, clen1, 0⟩
  { seg := ⟨st.seg.buff, st.seg.len - prefixSize, prefixSize⟩
    carry := st.backup
    backup := ⟨cb2, 0, 0⟩
    job := ⟨st.job.segs ++ [emitted]⟩ }

/-- `utilities::st::handle_carry_eof` (`src/unnamed/part_005`): append the whole
input to the carry, reverse the entire carry (no terminator excluded), emit it,
reset it and swap with the backup; the input segment is zeroed. -/
def handle_carry_eof (st : StState) : StState :=
  let cb1 := writeNats st.carry.buff st.carry.len (st.seg.buff.take st.seg.len)
  let clen1 := st.carry.len + st.seg.len
  let rr := if 0 < clen1 then reverse_range (cb1.take clen1) 0 clen1 else (true, cb1.take clen1)
  let cb2 := rr.2 ++ cb1.drop clen1
  let emitted : Segment := ⟨cb2, clen1, st.carry.off⟩
  { seg := ⟨st.seg.buff, 0, 0⟩
    carry := st.backup
    backup := ⟨cb2, 0, 0⟩
    job := ⟨st.job.segs ++ [emitted]⟩ }

/-- The `while` loop of `utilities::st::reverse_seg_recent`: walk the span
`[currPos, posEnd)` looking for LF; reverse each complete line in place
(excluding its terminator, aborting on malformed UTF-8 like the C `throw`);
when no LF remains, truncate the segment's length to the bytes before the
trailing partial line and copy that tail into the carry.  `fuel` bounds the
iteration count (the caller passes `posEnd + 1`, enough since `currPos`
strictly increases); `none` is the C exception. -/
def scanLines : Nat → List Nat → Nat → Nat → Nat → Segment →
    Option (List Nat × Nat × Segment)
  | 0, _, _, _, _, _ => none
  | fuel + 1, span, posEnd, currPos, segLen, carry =>
    if currPos < posEnd then
      match findLF ((span.drop currPos).take (posEnd - currPos)) with
      | none =>
        let tail := posEnd - currPos
        some (span, currPos, ⟨writeNats carry.buff 0 ((span.drop currPos).take tail), tail, 0⟩)
      | some rel =>
        let lf := currPos + rel
        let e1 := if currPos < lf ∧ span.getD (lf - 1) 0 = 13 then lf - 1 else lf
        let rr := reverse_range span currPos e1
        if rr.1 then scanLines fuel rr.2 posEnd (lf + 1) segLen carry
        else none
    else some (span, segLen, carry)

/-- `utilities::st::reverse_seg_recent` (`src/unnamed/part_005`): run the line
loop over the span `buff_[off_, off_ + len_)`, then append the (possibly
truncated) input segment to the job. -/
def reverse_seg_recent (st : StState) : Option StState :=
  let span := (st.seg.buff.drop st.seg.off).take st.seg.len
  let posEnd := span.length
  match scanLines (posEnd + 1) span posEnd 0 st.seg.len st.carry with
  | none => none
  | some (span1, len1, carry1) =>
    let seg1 : Segment :=
      ⟨st.seg.buff.take st.seg.off ++ span1 ++ st.seg.buff.drop (st.seg.off + st.seg.len),
        len1, st.seg.off⟩
    some { seg := seg1, carry := carry1, backup := st.backup,
           job := ⟨st.job.segs ++ [seg1]⟩ }

/-- `utilities::st::reverse_segment` (`src/unnamed/part_005`), the processor the
baseline driver calls: if the carry is non-empty, look for the first LF in the
fresh chunk; with no LF take the EOF-carry path and return, otherwise attach
the prefix via `handle_carry`; then (and also when the carry was empty) process
the remaining whole lines via `reverse_seg_recent`. -/
def reverse_segment (seg carry backup : Segment) : Option StState :=
  let st0 : StState := ⟨seg, carry, backup, ⟨[]⟩⟩
  if 0 < carry.len then
    match findLF (seg.buff.take seg.len) with
    | none => some (handle_carry_eof st0)
    | some i => reverse_seg_recent (handle_carry i st0)
  else reverse_seg_recent st0

/-! ## The driver loop (`src/src/baseline/file_reverser.cpp`)

The driver repeatedly reads up to `buf_size` bytes into the input segment
(offset 0, length = bytes read), calls `reverse_segment`, and gather-writes the
returned job's segments in order; a zero-byte read (EOF) still goes through one
final `reverse_segment` call before the loop exits. -/

/-- Split a byte stream into successive reads of `bs` bytes (the last one
short); `fuel` bounds the recursion (callers pass `x.length + 1`). -/
def chunksOfAux : Nat → Nat → List Nat → List (List Nat)
  | 0, _, _ => []
  | fuel + 1, bs, x => if x.isEmpty then [] else x.take bs :: chunksOfAux fuel bs (x.drop bs)

/-- The chunk sequence the reader produces for input `x` (without the final
zero-length EOF read). -/
def chunksOf (bs : Nat) (x : List Nat) : List (List Nat) := chunksOfAux (x.length + 1) bs x

/-- Reading a chunk into the (reused) input buffer. -/
def readChunk (inBuff c : List Nat) : Segment := ⟨writeNats inBuff 0 c, c.length, 0⟩

/-- The mutable state the driver owns across iterations: the input buffer and
the two carry buffers. -/
structure RunState where
  inBuff : List Nat
  carry : Segment
  backup : Segment
deriving Repr, DecidableEq

/-- Process the given chunk list, concatenating the bytes written for each
job.  `none` is the C exception (malformed input). -/
def runChunks : List (List Nat) → RunState → Option (List Nat)
  | [], _ => some []
  | c :: cs, st =>
    match reverse_segment (readChunk st.inBuff c) st.carry st.backup with
    | none => none
    | some r =>
      match runChunks cs ⟨r.seg.buff, r.carry, r.backup⟩ with
      | none => none
      | some out => some (jobBytes r.job ++ out)

/-- Fresh driver state: three zeroed buffers of `buf_size` bytes. -/
def initState (bufSize : Nat) : RunState :=
  ⟨List.replicate bufSize 0, ⟨List.replicate bufSize 0, 0, 0⟩,
    ⟨List.replicate bufSize 0, 0, 0⟩⟩

/-- The whole-file transform: the bytes the driver writes for input `x`
(including the final EOF call on a zero-length read). -/
def runSeg (bufSize : Nat) (x : List Nat) : Option (List Nat) :=
  runChunks (chunksOf bufSize x ++ [[]]) (initState bufSize)

/-- The driver state after `k` chunks have been processed. -/
def stateAfter : List (List Nat) → RunState → Nat → Option RunState
  | _, st, 0 => some st
  | [], _, _ + 1 => none
  | c :: cs, st, k + 1 =>
    match reverse_segment (readChunk st.inBuff c) st.carry st.backup with
    | none => none
    | some r => stateAfter cs ⟨r.seg.buff, r.carry, r.backup⟩ k

/-! ## Line-structured view of the input (specification side) -/

/-- A line terminator: bare LF or CRLF. -/
inductive Term
  | lf
  | crlf
deriving Repr, DecidableEq

/-- The terminator's bytes. -/
def Term.bytes : Term → List Nat
  | .lf => [10]
  | .crlf => [13, 10]

/-- One input line: code-point content plus terminator. -/
structure Line where
  content : List Nat
  term : Term
deriving Repr, DecidableEq

/-- A line's bytes on the wire. -/
def renderLine (l : Line) : List Nat := encAll l.content ++ l.term.bytes

/-- A whole input: terminated lines, then an unterminated final line's
code points (empty when the input ends with a terminator). -/
def render (ls : List Line) (fin : List Nat) : List Nat :=
  (ls.map renderLine).flatten ++ encAll fin

/-- The spec's per-line output: code-point-reversed content, same terminator. -/
def specLine (l : Line) : List Nat := encAll l.content.reverse ++ l.term.bytes

/-- The spec's whole-file output. -/
def specOut (ls : List Line) (fin : List Nat) : List Nat :=
  (ls.map specLine).flatten ++ encAll fin.reverse

/-- Well-formedness of a line under the canonical decomposition: scalar
content, no LF code point inside the content, and a bare-LF line's content may
not end in CR (such a byte string would decompose as a CRLF line instead). -/
def WFLine (l : Line) : Prop :=
  (∀ c ∈ l.content, ScalarCp c) ∧ 10 ∉ l.content ∧
    (l.term = Term.lf → l.content.getLast? ≠ some 13)

/-- Well-formedness of the final unterminated content. -/
def WFFinal (fin : List Nat) : Prop := (∀ c ∈ fin, ScalarCp c) ∧ 10 ∉ fin

/-! ### Byte-level facts about encodings and rendered lines -/

theorem encOne_multi_mem_ge (c b : Nat) (h1 : 0x80 ≤ c) (h2 : ScalarCp c)
    (hb : b ∈ encOne c) : 0x80 ≤ b ∧ b < 256 := by
  unfold ScalarCp at h2
  unfold encOne at hb
  rw [if_neg (by omega)] at hb
  by_cases h8 : c < 0x800
  · rw [if_pos h8] at hb
    have d1 : c / 64 < 32 := Nat.div_lt_iff_lt_mul (by omega) |>.mpr (by omega)
    have d2 : 2 ≤ c / 64 := Nat.le_div_iff_mul_le (by omega) |>.mpr (by omega)
    have m1 : c % 64 < 64 := Nat.mod_lt _ (by omega)
    simp only [List.mem_cons, List.mem_singleton, List.not_mem_nil, or_false] at hb
    rcases hb with rfl | rfl <;> omega
  · rw [if_neg h8] at hb
    by_cases h16 : c < 0x10000
    · rw [if_pos h16] at hb
      have d1 : c / 4096 < 16 := Nat.div_lt_iff_lt_mul (by omega) |>.mpr (by omega)
      have m1 : (c / 64) % 64 < 64 := Nat.mod_lt _ (by omega)
      have m2 : c % 64 < 64 := Nat.mod_lt _ (by omega)
      simp only [List.mem_cons, List.mem_singleton, List.not_mem_nil, or_false] at hb
      rcases hb with rfl | rfl | rfl <;> omega
    · rw [if_neg h16] at hb
      have d1 : c / 262144 < 5 := Nat.div_lt_iff_lt_mul (by omega) |>.mpr (by omega)
      have m1 : (c / 4096) % 64 < 64 := Nat.mod_lt _ (by omega)
      have m2 : (c / 64) % 64 < 64 := Nat.mod_lt _ (by omega)
      have m3 : c % 64 < 64 := Nat.mod_lt _ (by omega)
      simp only [List.mem_cons, List.mem_singleton, List.not_mem_nil, or_false] at hb
      rcases hb with rfl | rfl | rfl | rfl <;> omega

/-- A byte below `0x80` occurs in an encoding exactly when it occurs as a code
point. -/
theorem mem_encAll_low (cps : List Nat) (b : Nat) (hs : ∀ c ∈ cps, ScalarCp c)
    (hlow : b < 0x80) : b ∈ encAll cps ↔ b ∈ cps := by
  induction cps with
  | nil => simp [encAll_nil]
  | cons c cs ih =>
    have hc : ScalarCp c := hs c (by simp)
    have hcs : ∀ x ∈ cs, ScalarCp x := fun x hx => hs x (by simp [hx])
    rw [encAll_cons]
    simp only [List.mem_append, List.mem_cons]
    rw [ih hcs]
    constructor
    · rintro (h1 | h2)
      · left
        by_cases ha : c < 0x80
        · rw [encOne_ascii c ha] at h1
          simpa using h1
        · exfalso
          have := encOne_multi_mem_ge c b (by omega) hc h1
          omega
      · right; exact h2
    · rintro (rfl | h2)
      · left
        by_cases ha : b < 0x80
        · rw [encOne_ascii b ha]; simp
        · omega
      · right; exact h2

theorem encAll_not_mem_10 (cps : List Nat) (hs : ∀ c ∈ cps, ScalarCp c)
    (h : 10 ∉ cps) : 10 ∉ encAll cps := fun hc =>
  h ((mem_encAll_low cps 10 hs (by omega)).mp hc)

theorem encAll_length_reverse (cps : List Nat) :
    (encAll cps.reverse).length = (encAll cps).length := by
  induction cps with
  | nil => rfl
  | cons c cs ih =>
    rw [encAll_cons]
    simp only [List.reverse_cons]
    rw [encAll_append]
    simp only [List.length_append]
    rw [ih]
    simp [encAll_cons, encAll_nil]
    omega

/-- The last byte of a nonempty scalar encoding whose last code point is not CR
is itself not CR. -/
theorem encAll_getLast_ne_13 (cps : List Nat) (hs : ∀ c ∈ cps, ScalarCp c)
    (h13 : cps.getLast? ≠ some 13) : (encAll cps).getLast? ≠ some 13 := by
  rcases List.eq_nil_or_concat cps with rfl | ⟨init, c, rfl⟩
  · simp [encAll_nil]
  · rw [List.concat_eq_append] at *
    rw [encAll_append]
    have hc : ScalarCp c := hs c (by simp)
    have hlast : (encAll [c]).getLast? ≠ some 13 := by
      rw [encAll_cons, encAll_nil, List.append_nil]
      by_cases ha : c < 0x80
      · rw [encOne_ascii c ha]
        have : c ≠ 13 := by
          intro hcc
          apply h13
          rw [hcc] at *
          simp [List.getLast?_concat]
        simpa using this
      · obtain ⟨L, cs, henc, hcs, hcont, _, _⟩ := encOne_multi c (by omega) hc
        rw [henc]
        intro hcontra
        have hne2 : (L :: cs) ≠ [] := by simp
        rw [List.getLast?_eq_getLast_of_ne_nil hne2] at hcontra
        have h2 : (L :: cs).getLast hne2 = 13 := by
          injection hcontra
        have hmem : (13 : Nat) ∈ L :: cs := h2 ▸ List.getLast_mem hne2
        have h256 : ∀ b ∈ encOne c, 0x80 ≤ b ∧ b < 256 :=
          fun b hb => encOne_multi_mem_ge c b (by omega) hc hb
        rw [henc] at h256
        have := h256 13 hmem
        omega
    rw [List.getLast?_append_of_ne_nil]
    · exact hlast
    · rw [encAll_cons, encAll_nil, List.append_nil]
      exact encOne_ne_nil c

/-! ### `findLF` and `writeNats` facts -/

theorem findLF_eq_none_iff (l : List Nat) : findLF l = none ↔ 10 ∉ l := by
  unfold findLF
  rw [List.findIdx?_eq_none_iff]
  constructor
  · intro h hmem
    have := h 10 hmem
    simp at this
  · intro h x hx
    have : x ≠ 10 := fun hh => h (hh ▸ hx)
    simpa using this

theorem findLF_append_10 (a b : List Nat) (h : 10 ∉ a) :
    findLF (a ++ 10 :: b) = some a.length := by
  unfold findLF
  rw [List.findIdx?_append]
  have h1 : List.findIdx? (fun x => x == 10) a = none := by
    rw [List.findIdx?_eq_none_iff]
    intro x hx
    have : x ≠ 10 := fun hh => h (hh ▸ hx)
    simpa using this
  rw [h1]
  rw [List.findIdx?_cons]
  simp

theorem writeNats_zero (dst src : List Nat) :
    writeNats dst 0 src = src ++ dst.drop src.length := by
  simp [writeNats]

theorem writeNats_length (dst : List Nat) (pos : Nat) (src : List Nat)
    (h : pos + src.length ≤ dst.length) :
    (writeNats dst pos src).length = dst.length := by
  simp only [writeNats, List.length_append, List.length_take, List.length_drop]
  omega

/-- Appending into a buffer whose first `pos` bytes are known. -/
theorem writeNats_take (dst : List Nat) (pos : Nat) (src : List Nat)
    (hpos : pos ≤ dst.length) :
    (writeNats dst pos src).take (pos + src.length) = dst.take pos ++ src := by
  have hlen : (dst.take pos ++ src).length = pos + src.length := by
    simp only [List.length_append, List.length_take]
    omega
  unfold writeNats
  rw [List.append_assoc] at *
  have h1 := List.take_left (dst.take pos ++ src) (dst.drop (pos + src.length))
  rw [hlen] at h1
  rw [← List.append_assoc]
  exact h1

/-! ### Rendered-line facts -/

/-- A rendered line is its body (content, plus CR for CRLF) followed by LF. -/
def lineBody (l : Line) : List Nat :=
  encAll l.content ++ (if l.term = Term.crlf then [13] else [])

theorem renderLine_eq_body (l : Line) : renderLine l = lineBody l ++ [10] := by
  cases hterm : l.term <;> simp [renderLine, lineBody, Term.bytes, hterm]

theorem lineBody_no_10 (l : Line) (h : WFLine l) : 10 ∉ lineBody l := by
  obtain ⟨hs, h10, _⟩ := h
  unfold lineBody
  intro hmem
  rcases List.mem_append.mp hmem with h1 | h2
  · exact encAll_not_mem_10 l.content hs h10 h1
  · revert h2
    split <;> simp

theorem renderLine_length (l : Line) :
    (renderLine l).length = (lineBody l).length + 1 := by
  rw [renderLine_eq_body]
  simp

theorem renderLine_ne_nil (l : Line) : renderLine l ≠ [] := by
  rw [renderLine_eq_body]
  simp

/-- The first LF in a rendered line (plus anything after it) is the line's
terminator. -/
theorem findLF_renderLine_append (l : Line) (rest : List Nat) (h : WFLine l) :
    findLF (renderLine l ++ rest) = some (lineBody l).length := by
  rw [renderLine_eq_body, List.append_assoc]
  exact findLF_append_10 (lineBody l) rest (lineBody_no_10 l h)

theorem specLine_length (l : Line) : (specLine l).length = (renderLine l).length := by
  unfold specLine renderLine
  simp only [List.length_append, encAll_length_reverse]

theorem getD_drop (l : List Nat) (n m d : Nat) :
    (l.drop n).getD m d = l.getD (n + m) d := by
  simp [List.getD_eq_getElem?_getD, List.getElem?_drop]

theorem getD_append_left (a b : List Nat) (j d : Nat) (h : j < a.length) :
    (a ++ b).getD j d = a.getD j d := by
  simp [List.getD_eq_getElem?_getD, List.getElem?_append_left h]

theorem getD_of_getLast? (a : List Nat) (x d : Nat) (h : a.getLast? = some x) :
    a.getD (a.length - 1) d = x := by
  rw [List.getD_eq_getElem?_getD, ← List.getLast?_eq_getElem?, h]
  rfl

/-! ### The line-scanning loop on a well-formed window -/

/-- Characterisation of the `reverse_seg_recent` loop: scanning a window that
consists of complete well-formed lines followed by an LF-free tail reverses
each line's content in place, truncates the length to just after the last
terminator, and copies the raw tail into the carry. -/
theorem scanLines_spec (inside : List Line) :
    ∀ (span : List Nat) (currPos segLen fuel : Nat) (carry : Segment)
      (pb : List Nat),
      (∀ l ∈ inside, WFLine l) →
      10 ∉ pb →
      span.drop currPos = (inside.map renderLine).flatten ++ pb →
      currPos ≤ span.length →
      span.length - currPos + 1 ≤ fuel →
      scanLines fuel span span.length currPos segLen carry =
        some (span.take currPos ++ (inside.map specLine).flatten ++ pb,
          (if pb.isEmpty then segLen
           else currPos + ((inside.map renderLine).flatten).length),
          (if pb.isEmpty then carry
           else ⟨writeNats carry.buff 0 pb, pb.length, 0⟩)) := by
  induction inside with
  | nil =>
    intro span currPos segLen fuel carry pb hWF hpb hdrop hle hfuel
    cases fuel with
    | zero => omega
    | succ f =>
      simp only [List.map_nil, List.flatten_nil, List.nil_append] at hdrop
      by_cases hpbe : pb = []
      · subst hpbe
        have hcurr : currPos = span.length := by
          have := congrArg List.length hdrop
          simp only [List.length_drop, List.length_nil] at this
          omega
        unfold scanLines
        rw [if_neg (by omega)]
        rw [hcurr, List.take_length]
        simp
      · have hlt : currPos < span.length := by
          have := congrArg List.length hdrop
          simp only [List.length_drop] at this
          have hpos : 0 < pb.length := List.length_pos.mpr hpbe
          omega
        unfold scanLines
        rw [if_pos hlt]
        have htake : (span.drop currPos).take (span.length - currPos) = span.drop currPos := by
          have : (span.drop currPos).length = span.length - currPos := by
            simp [List.length_drop]
          rw [← this, List.take_length]
        rw [htake, hdrop]
        rw [(findLF_eq_none_iff pb).mpr hpb]
        have hpbe2 : pb.isEmpty = false := by
          cases pb with
          | nil => exact absurd rfl hpbe
          | cons a as => rfl
        simp only [hpbe2, Bool.false_eq_true, if_neg, not_false_iff]
        have htail : span.length - currPos = pb.length := by
          have := congrArg List.length hdrop
          simp only [List.length_drop] at this
          omega
        rw [htail]
        have hspan2 : span.take currPos ++ pb = span := by
          have h2 := List.take_append_drop currPos span
          rw [hdrop] at h2
          exact h2
        simp only [List.map_nil, List.flatten_nil, List.nil_append, List.append_nil,
          List.length_nil, Nat.add_zero, List.take_length, hspan2]
  | cons l ins ih =>
    intro span currPos segLen fuel carry pb hWF hpb hdrop hle hfuel
    have hWFl : WFLine l := hWF l (by simp)
    have hWFins : ∀ x ∈ ins, WFLine x := fun x hx => hWF x (by simp [hx])
    have hdrop2 : span.drop currPos = renderLine l ++ ((ins.map renderLine).flatten ++ pb) := by
      rw [hdrop]
      simp [List.append_assoc]
    have hrl_pos : 0 < (renderLine l).length :=
      List.length_pos.mpr (renderLine_ne_nil l)
    have hlt : currPos < span.length := by
      have := congrArg List.length hdrop2
      simp only [List.length_drop, List.length_append] at this
      omega
    cases fuel with
    | zero => omega
    | succ f =>
      unfold scanLines
      rw [if_pos hlt]
      have htake : (span.drop currPos).take (span.length - currPos) = span.drop currPos := by
        have : (span.drop currPos).length = span.length - currPos := by
          simp [List.length_drop]
        rw [← this, List.take_length]
      rw [htake, hdrop2]
      rw [findLF_renderLine_append l _ hWFl]
      simp only []
      set rest := (ins.map renderLine).flatten ++ pb with hrest
      set A := span.take currPos with hA
      have hspan_len : span.length - currPos = (renderLine l).length + rest.length := by
        have := congrArg List.length hdrop2
        simp only [List.length_drop, List.length_append] at this
        omega
      have hpre : A.length = currPos := by
        rw [hA]
        simp only [List.length_take]
        omega
      have hdropLB : span.drop currPos = lineBody l ++ (10 :: rest) := by
        rw [hdrop2, renderLine_eq_body]
        simp [List.append_assoc]
      have hlb1 : (lineBody l).length + 1 = (renderLine l).length := by
        rw [renderLine_eq_body]
        simp
      -- the terminator-exclusion bound is the content's end in every case
      have hkey : (if currPos < currPos + (lineBody l).length ∧
            span.getD (currPos + (lineBody l).length - 1) 0 = 13
          then currPos + (lineBody l).length - 1
          else currPos + (lineBody l).length)
          = currPos + (encAll l.content).length := by
        by_cases hterm : l.term = Term.crlf
        · have hlbe : lineBody l = encAll l.content ++ [13] := by
            simp [lineBody, hterm]
          have hlbne : 0 < (lineBody l).length := by rw [hlbe]; simp
          have hgd : span.getD (currPos + (lineBody l).length - 1) 0 = 13 := by
            have e1 : currPos + (lineBody l).length - 1 =
                currPos + ((lineBody l).length - 1) := by omega
            rw [e1, ← getD_drop, hdropLB]
            rw [getD_append_left _ _ _ _ (by omega)]
            exact getD_of_getLast? (lineBody l) 13 0 (by rw [hlbe]; exact List.getLast?_concat _)
          rw [if_pos ⟨by omega, hgd⟩]
          rw [hlbe]
          simp only [List.length_append, List.length_singleton]
          omega
        · have hlf : l.term = Term.lf := by
            cases hterm2 : l.term
            · rfl
            · exact absurd hterm2 hterm
          have hlbe : lineBody l = encAll l.content := by
            simp [lineBody, hlf]
          by_cases hE : encAll l.content = []
          · rw [if_neg]
            · rw [hlbe, hE]
            · rw [hlbe, hE]
              simp
          · have hgl : (encAll l.content).getLast? ≠ some 13 :=
              encAll_getLast_ne_13 l.content hWFl.1 (hWFl.2.2 hlf)
            obtain ⟨v, hv⟩ : ∃ v, (encAll l.content).getLast? = some v := by
              rw [List.getLast?_eq_getLast_of_ne_nil hE]
              exact ⟨_, rfl⟩
            have hv13 : v ≠ 13 := fun hh => hgl (hh ▸ hv)
            have hlbne : 0 < (lineBody l).length := by
              rw [hlbe]
              exact List.length_pos.mpr hE
            rw [if_neg]
            · rw [hlbe]
            · rintro ⟨h1, h2⟩
              apply hv13
              have e1 : currPos + (lineBody l).length - 1 =
                  currPos + ((lineBody l).length - 1) := by omega
              rw [e1, ← getD_drop, hdropLB] at h2
              rw [getD_append_left _ _ _ _ (by omega)] at h2
              rw [hlbe] at h2
              rw [getD_of_getLast? (encAll l.content) v 0 hv] at h2
              exact h2
      rw [hkey]
      -- the reversal of this line's content
      have hspanD : span = A ++ (encAll l.content ++ (l.term.bytes ++ rest)) := by
        conv_lhs => rw [← List.take_append_drop currPos span]
        rw [hdrop2]
        unfold renderLine
        rw [hA]
        simp [List.append_assoc]
      have hrr : reverse_range span currPos (currPos + (encAll l.content).length) =
          (true, A ++ encAll l.content.reverse ++ (l.term.bytes ++ rest)) := by
        have h1 := reverse_range_encAll A (l.term.bytes ++ rest) l.content hWFl.1
        rw [hpre] at h1
        rw [hspanD, ← List.append_assoc]
        exact h1
      rw [hrr]
      simp only [if_pos]
      set span2 := A ++ encAll l.content.reverse ++ (l.term.bytes ++ rest) with hspan2
      have hlen2 : span.length = span2.length := by
        rw [hspan2, hspanD]
        simp only [List.length_append, encAll_length_reverse]
        omega
      have hrl_len : (renderLine l).length =
          (encAll l.content).length + (l.term.bytes).length := by
        unfold renderLine
        simp
      have hsl_len : (specLine l).length = (renderLine l).length := specLine_length l
      have hfront : (A ++ (encAll l.content.reverse ++ l.term.bytes)).length =
          currPos + (lineBody l).length + 1 := by
        simp only [List.length_append, encAll_length_reverse, hpre]
        omega
      have hdrop3 : span2.drop (currPos + (lineBody l).length + 1) =
          (ins.map renderLine).flatten ++ pb := by
        rw [hspan2, ← hrest]
        have : A ++ encAll l.content.reverse ++ (l.term.bytes ++ rest) =
            (A ++ (encAll l.content.reverse ++ l.term.bytes)) ++ rest := by
          simp [List.append_assoc]
        rw [this, ← hfront, List.drop_left]
      have hle3 : currPos + (lineBody l).length + 1 ≤ span2.length := by
        rw [← hlen2]
        omega
      have hfuel3 : span2.length - (currPos + (lineBody l).length + 1) + 1 ≤ f := by
        rw [← hlen2]
        omega
      have hIH := ih span2 (currPos + (lineBody l).length + 1) segLen f carry pb
        hWFins hpb hdrop3 hle3 hfuel3
      rw [← hlen2] at hIH
      rw [hIH]
      -- assemble the final state
      have htakefront : span2.take (currPos + (lineBody l).length + 1) =
          A ++ (encAll l.content.reverse ++ l.term.bytes) := by
        rw [hspan2]
        have : A ++ encAll l.content.reverse ++ (l.term.bytes ++ rest) =
            (A ++ (encAll l.content.reverse ++ l.term.bytes)) ++ rest := by
          simp [List.append_assoc]
        rw [this, ← hfront, List.take_left]
      rw [htakefront]
      have hflat : (List.map specLine (l :: ins)).flatten =
          (encAll l.content.reverse ++ l.term.bytes) ++ (List.map specLine ins).flatten := by
        simp [specLine]
      have hflatr : (List.map renderLine (l :: ins)).flatten.length =
          (renderLine l).length + (List.map renderLine ins).flatten.length := by
        simp
      refine congrArg some ?_
      refine Prod.ext ?_ (Prod.ext ?_ ?_)
      · show A ++ (encAll l.content.reverse ++ l.term.bytes) ++ (List.map specLine ins).flatten
            ++ pb = A ++ (List.map specLine (l :: ins)).flatten ++ pb
        rw [hflat]
        simp [List.append_assoc]
      · show (if pb.isEmpty then segLen
            else currPos + (lineBody l).length + 1 + (List.map renderLine ins).flatten.length)
            = (if pb.isEmpty then segLen
            else currPos + (List.map renderLine (l :: ins)).flatten.length)
        by_cases hpbe : pb.isEmpty
        · rw [if_pos hpbe, if_pos hpbe]
        · rw [if_neg hpbe, if_neg hpbe, hflatr]
          omega
      · rfl

/-- Characterisation of `reverse_seg_recent` on a well-formed window: the
emitted segment holds the reversed complete lines, and the raw LF-free tail
moves into the carry. -/
theorem reverse_seg_recent_spec (st : StState) (inside : List Line) (pb : List Nat)
    (hWF : ∀ l ∈ inside, WFLine l) (hpb : 10 ∉ pb)
    (hlen : st.seg.off + st.seg.len ≤ st.seg.buff.length)
    (hwin : (st.seg.buff.drop st.seg.off).take st.seg.len =
      (inside.map renderLine).flatten ++ pb) :
    reverse_seg_recent st = some
      { seg := ⟨st.seg.buff.take st.seg.off ++ ((inside.map specLine).flatten ++ pb) ++
            st.seg.buff.drop (st.seg.off + st.seg.len),
          (if pb.isEmpty then st.seg.len else (inside.map renderLine).flatten.length),
          st.seg.off⟩,
        carry := (if pb.isEmpty then st.carry
          else ⟨writeNats st.carry.buff 0 pb, pb.length, 0⟩),
        backup := st.backup,
        job := ⟨st.job.segs ++
          [⟨st.seg.buff.take st.seg.off ++ ((inside.map specLine).flatten ++ pb) ++
              st.seg.buff.drop (st.seg.off + st.seg.len),
            (if pb.isEmpty then st.seg.len else (inside.map renderLine).flatten.length),
            st.seg.off⟩]⟩ } := by
  unfold reverse_seg_recent
  have hplen : ((st.seg.buff.drop st.seg.off).take st.seg.len).length = st.seg.len := by
    simp only [List.length_take, List.length_drop]
    omega
  have hs := scanLines_spec inside ((st.seg.buff.drop st.seg.off).take st.seg.len)
    0 st.seg.len (((st.seg.buff.drop st.seg.off).take st.seg.len).length + 1) st.carry pb
    hWF hpb (by simpa using hwin) (by omega) (by omega)
  dsimp only
  rw [hs]
  dsimp only
  simp only [List.take_zero, List.nil_append, Nat.zero_add]

/-- Characterisation of `handle_carry`: the carry holding the raw head `cl` of
a line whose remaining bytes (terminator included) are the chunk's prefix of
length `i + 1` emits exactly the line's spec output, resets and swaps the
carry, and advances the input segment past the prefix. -/
theorem handle_carry_spec (st : StState) (i : Nat) (l : Line) (cl : List Nat)
    (hWFl : WFLine l)
    (hcl : st.carry.buff.take st.carry.len = cl)
    (hcap : st.carry.len + (i + 1) ≤ st.carry.buff.length)
    (hline : cl ++ st.seg.buff.take (i + 1) = renderLine l)
    (hi : i + 1 ≤ st.seg.buff.length) :
    ∃ cb2, handle_carry i st =
      ⟨⟨st.seg.buff, st.seg.len - (i+1), i+1⟩, st.backup, ⟨cb2, 0, 0⟩,
        ⟨st.job.segs ++ [⟨cb2, st.carry.len + (i + 1), 0⟩]⟩⟩ ∧
      cb2.take (st.carry.len + (i + 1)) = specLine l ∧
      cb2.length = st.carry.buff.length := by
  have hcllen : cl.length = st.carry.len := by
    rw [← hcl]
    simp only [List.length_take]
    omega
  have hplen : (st.seg.buff.take (i + 1)).length = i + 1 := by
    simp only [List.length_take]
    omega
  have hrlen : (renderLine l).length = st.carry.len + (i + 1) := by
    rw [← hline]
    simp only [List.length_append, hcllen, hplen]
  -- the appended carry buffer
  have hcb1 : (writeNats st.carry.buff st.carry.len (st.seg.buff.take (i + 1))).take
      (st.carry.len + (i + 1)) = renderLine l := by
    have h1 := writeNats_take st.carry.buff st.carry.len (st.seg.buff.take (i + 1))
      (by omega)
    rw [hplen] at h1
    rw [hcl] at h1
    rw [← hline]
    exact h1
  have hcb1len : (writeNats st.carry.buff st.carry.len (st.seg.buff.take (i + 1))).length
      = st.carry.buff.length := by
    rw [writeNats_length]
    rw [hplen]
    omega
  unfold handle_carry
  simp only []
  set cb1 := writeNats st.carry.buff st.carry.len (st.seg.buff.take (i + 1)) with hcb1d
  set clen1 := st.carry.len + (i + 1) with hclen1
  -- `to` analysis: identical to the scan loop's terminator exclusion
  have hto0 : (if 1 ≤ clen1 then clen1 - 1 else 0) = (lineBody l).length := by
    rw [if_pos (by omega)]
    have := renderLine_length l
    omega
  rw [hto0]
  have hcb1drop : cb1.take clen1 = lineBody l ++ [10] := by
    rw [hcb1, ← renderLine_eq_body]
  have hkey : (if 0 < (lineBody l).length ∧ cb1.getD ((lineBody l).length - 1) 0 = 13
      then (lineBody l).length - 1 else (lineBody l).length)
      = (encAll l.content).length := by
    by_cases hterm : l.term = Term.crlf
    · have hlbe : lineBody l = encAll l.content ++ [13] := by
        simp [lineBody, hterm]
      have hlbne : 0 < (lineBody l).length := by rw [hlbe]; simp
      have hgd : cb1.getD ((lineBody l).length - 1) 0 = 13 := by
        have h2 : cb1.getD ((lineBody l).length - 1) 0 =
            (cb1.take clen1).getD ((lineBody l).length - 1) 0 := by
          rw [List.getD_eq_getElem?_getD, List.getD_eq_getElem?_getD]
          rw [List.getElem?_take_of_lt]
          have := renderLine_length l
          omega
        rw [h2, hcb1drop]
        rw [getD_append_left _ _ _ _ (by omega)]
        exact getD_of_getLast? (lineBody l) 13 0 (by rw [hlbe]; exact List.getLast?_concat _)
      rw [if_pos ⟨hlbne, hgd⟩]
      rw [hlbe]
      simp only [List.length_append, List.length_singleton]
      omega
    · have hlf : l.term = Term.lf := by
        cases hterm2 : l.term
        · rfl
        · exact absurd hterm2 hterm
      have hlbe : lineBody l = encAll l.content := by
        simp [lineBody, hlf]
      by_cases hE : encAll l.content = []
      · rw [if_neg]
        · rw [hlbe, hE]
        · rw [hlbe, hE]
          simp
      · have hgl : (encAll l.content).getLast? ≠ some 13 :=
          encAll_getLast_ne_13 l.content hWFl.1 (hWFl.2.2 hlf)
        obtain ⟨v, hv⟩ : ∃ v, (encAll l.content).getLast? = some v := by
          rw [List.getLast?_eq_getLast_of_ne_nil hE]
          exact ⟨_, rfl⟩
        have hv13 : v ≠ 13 := fun hh => hgl (hh ▸ hv)
        have hlbne : 0 < (lineBody l).length := by
          rw [hlbe]
          exact List.length_pos.mpr hE
        rw [if_neg]
        · rw [hlbe]
        · rintro ⟨h1, h2⟩
          apply hv13
          have h3 : cb1.getD ((lineBody l).length - 1) 0 =
              (cb1.take clen1).getD ((lineBody l).length - 1) 0 := by
            rw [List.getD_eq_getElem?_getD, List.getD_eq_getElem?_getD]
            rw [List.getElem?_take_of_lt]
            have := renderLine_length l
            omega
          rw [h3, hcb1drop] at h2
          rw [getD_append_left _ _ _ _ (by omega)] at h2
          rw [hlbe] at h2
          rw [getD_of_getLast? (encAll l.content) v 0 hv] at h2
          exact h2
  rw [hkey]
  -- the reversal of the carry's content
  have hrrres : (if 0 < (encAll l.content).length
      then reverse_range (cb1.take clen1) 0 (encAll l.content).length
      else (true, cb1.take clen1)) = (true, specLine l) := by
    by_cases hE : encAll l.content = []
    · rw [if_neg (by rw [hE]; simp)]
      rw [hcb1]
      have hcnil : l.content = [] := (encAll_eq_nil_iff l.content).mp hE
      unfold renderLine specLine
      rw [hcnil]
      simp
    · rw [if_pos (by have := List.length_pos.mpr hE; omega)]
      rw [hcb1]
      have h1 := reverse_range_encAll [] (l.term.bytes) l.content hWFl.1
      simp only [List.nil_append, List.length_nil, Nat.zero_add] at h1
      unfold renderLine specLine
      exact h1
  rw [hrrres]
  refine ⟨specLine l ++ cb1.drop clen1, ?_, ?_, ?_⟩
  · rfl
  · have hsl : (specLine l).length = clen1 := by
      rw [specLine_length, hrlen]
    rw [← hsl, List.take_left]
  · simp only [List.length_append, List.length_drop, hcb1len]
    have hsl : (specLine l).length = clen1 := by
      rw [specLine_length, hrlen]
    omega

/-- Characterisation of `handle_carry_eof`: the carry holding the raw bytes
`cl` plus the whole (LF-free) input forms the final line's encoding; the whole
carry is reversed and emitted, and the input segment is zeroed. -/
theorem handle_carry_eof_spec (st : StState) (fin : List Nat) (cl : List Nat)
    (hfin : ∀ c ∈ fin, ScalarCp c)
    (hcl : st.carry.buff.take st.carry.len = cl)
    (hcap : st.carry.len + st.seg.len ≤ st.carry.buff.length)
    (hline : cl ++ st.seg.buff.take st.seg.len = encAll fin)
    (hi : st.seg.len ≤ st.seg.buff.length) :
    ∃ cb2, handle_carry_eof st =
      ⟨⟨st.seg.buff, 0, 0⟩, st.backup, ⟨cb2, 0, 0⟩,
        ⟨st.job.segs ++ [⟨cb2, st.carry.len + st.seg.len, st.carry.off⟩]⟩⟩ ∧
      cb2.take (st.carry.len + st.seg.len) = encAll fin.reverse ∧
      cb2.length = st.carry.buff.length := by
  have hcllen : cl.length = st.carry.len := by
    rw [← hcl]
    simp only [List.length_take]
    omega
  have hplen : (st.seg.buff.take st.seg.len).length = st.seg.len := by
    simp only [List.length_take]
    omega
  have hrlen : (encAll fin).length = st.carry.len + st.seg.len := by
    rw [← hline]
    simp only [List.length_append, hcllen, hplen]
  have hcb1 : (writeNats st.carry.buff st.carry.len (st.seg.buff.take st.seg.len)).take
      (st.carry.len + st.seg.len) = encAll fin := by
    have h1 := writeNats_take st.carry.buff st.carry.len (st.seg.buff.take st.seg.len)
      (by omega)
    rw [hplen] at h1
    rw [hcl] at h1
    rw [← hline]
    exact h1
  have hcb1len : (writeNats st.carry.buff st.carry.len (st.seg.buff.take st.seg.len)).length
      = st.carry.buff.length := by
    rw [writeNats_length]
    rw [hplen]
    omega
  unfold handle_carry_eof
  simp only []
  set cb1 := writeNats st.carry.buff st.carry.len (st.seg.buff.take st.seg.len) with hcb1d
  set clen1 := st.carry.len + st.seg.len with hclen1
  have hrrres : (if 0 < clen1 then reverse_range (cb1.take clen1) 0 clen1
      else (true, cb1.take clen1)) = (true, encAll fin.reverse) := by
    by_cases hz : 0 < clen1
    · rw [if_pos hz]
      rw [hcb1]
      have h1 := reverse_range_encAll [] [] fin hfin
      simp only [List.nil_append, List.append_nil, List.length_nil, Nat.zero_add] at h1
      rw [← hrlen]
      exact h1
    · rw [if_neg hz]
      have hclz : clen1 = 0 := by omega
      have hfin0 : encAll fin = [] := by
        have := hrlen
        rw [hclz] at this
        exact List.length_eq_zero.mp this
      have : fin = [] := (encAll_eq_nil_iff fin).mp hfin0
      rw [hcb1, hfin0, this]
      simp [encAll_nil]
  rw [hrrres]
  refine ⟨encAll fin.reverse ++ cb1.drop clen1, ?_, ?_, ?_⟩
  · rfl
  · have hsl : (encAll fin.reverse).length = clen1 := by
      rw [encAll_length_reverse, hrlen]
    rw [← hsl, List.take_left]
  · simp only [List.length_append, List.length_drop, hcb1len]
    have hsl : (encAll fin.reverse).length = clen1 := by
      rw [encAll_length_reverse, hrlen]
    omega

/-! ### Rendering facts and the chunk-boundary decomposition -/

theorem render_cons (l : Line) (todo : List Line) (fin : List Nat) :
    render (l :: todo) fin = renderLine l ++ render todo fin := by
  simp [render]

theorem render_nil (fin : List Nat) : render [] fin = encAll fin := by
  simp [render]

theorem specOut_cons (l : Line) (todo : List Line) (fin : List Nat) :
    specOut (l :: todo) fin = specLine l ++ specOut todo fin := by
  simp [specOut]

theorem specOut_nil (fin : List Nat) : specOut [] fin = encAll fin.reverse := by
  simp [specOut]

theorem render_eq_nil (todo : List Line) (fin : List Nat)
    (h : render todo fin = []) : todo = [] ∧ fin = [] := by
  unfold render at h
  rw [List.append_eq_nil] at h
  obtain ⟨h1, h2⟩ := h
  constructor
  · cases todo with
    | nil => rfl
    | cons l ls =>
      exfalso
      simp only [List.map_cons, List.flatten_cons, List.append_eq_nil] at h1
      exact renderLine_ne_nil l h1.1
  · exact (encAll_eq_nil_iff fin).mp h2

theorem ten_mem_renderLine (l : Line) : 10 ∈ renderLine l := by
  rw [renderLine_eq_body]
  simp

theorem ten_mem_render_cons (l : Line) (todo : List Line) (fin : List Nat) :
    10 ∈ render (l :: todo) fin := by
  rw [render_cons]
  exact List.mem_append.mpr (Or.inl (ten_mem_renderLine l))

theorem flatten_specLine_length (ls : List Line) :
    (ls.map specLine).flatten.length = (ls.map renderLine).flatten.length := by
  induction ls with
  | nil => rfl
  | cons l ls ih =>
    simp only [List.map_cons, List.flatten_cons, List.length_append, ih, specLine_length]

/-- A LF-free head `cl` of a stream starting with line `l` is a proper prefix
of the line's bytes; the line's remaining bytes `P` are nonempty and carry the
stream's remainder. -/
theorem head_prefix_of_line (cl X Y : List Nat) (l : Line)
    (hnl : 10 ∉ cl) (heq : cl ++ X = renderLine l ++ Y) :
    ∃ P, renderLine l = cl ++ P ∧ P ≠ [] ∧ X = P ++ Y := by
  rcases List.append_eq_append_iff.mp heq with ⟨P, hP1, hP2⟩ | ⟨z, hz1, hz2⟩
  · refine ⟨P, hP1, ?_, hP2⟩
    intro hPnil
    subst hPnil
    rw [List.append_nil] at hP1
    exact hnl (hP1 ▸ ten_mem_renderLine l)
  · exfalso
    exact hnl (hz1 ▸ List.mem_append.mpr (Or.inl (ten_mem_renderLine l)))

/-- The remaining bytes of a partially consumed line: an LF-free body followed
by the terminating LF. -/
theorem line_remainder_structure (cl P : List Nat) (l : Line) (hWFl : WFLine l)
    (hsplit : renderLine l = cl ++ P) (hne : P ≠ []) :
    ∃ Pb, P = Pb ++ [10] ∧ 10 ∉ Pb := by
  have hbody : cl ++ P = lineBody l ++ [10] := by
    rw [← hsplit, renderLine_eq_body]
  have hPpos : 0 < P.length := List.length_pos.mpr hne
  rcases List.append_eq_append_iff.mp hbody with ⟨a, ha1, ha2⟩ | ⟨z, hz1, hz2⟩
  · exact ⟨a, ha2, fun hm =>
      lineBody_no_10 l hWFl (ha1 ▸ List.mem_append.mpr (Or.inr hm))⟩
  · cases z with
    | nil =>
      refine ⟨[], ?_, by simp⟩
      simpa using hz2.symm
    | cons x xs =>
      exfalso
      have := congrArg List.length hz2
      simp only [List.length_singleton, List.length_cons, List.length_append,
        List.length_nil] at this
      omega

/-- Chunk-boundary decomposition: a chunk `c` carving the rendered stream at an
arbitrary point splits into a run of whole lines followed by an LF-free tail. -/
theorem chunk_decomp (todo : List Line) (fin : List Nat) :
    ∀ (c rest : List Nat),
      (∀ l ∈ todo, WFLine l) → WFFinal fin →
      c ++ rest = render todo fin →
      ∃ (m : Nat) (pb : List Nat),
        c = ((todo.take m).map renderLine).flatten ++ pb ∧
        10 ∉ pb ∧
        pb ++ rest = render (todo.drop m) fin := by
  induction todo with
  | nil =>
    intro c rest hWF hfin heq
    rw [render_nil] at heq
    refine ⟨0, c, by simp, ?_, by simpa [render_nil] using heq⟩
    intro hmem
    have h10 : 10 ∈ encAll fin := heq ▸ List.mem_append.mpr (Or.inl hmem)
    exact encAll_not_mem_10 fin hfin.1 hfin.2 h10
  | cons l todo ih =>
    intro c rest hWF hfin heq
    rw [render_cons] at heq
    rcases List.append_eq_append_iff.mp heq with ⟨P, hP1, hP2⟩ | ⟨z, hz1, hz2⟩
    · -- c is a prefix of the first line
      by_cases hPnil : P = []
      · -- c is exactly the first line: recurse with the empty remainder
        subst hPnil
        rw [List.append_nil] at hP1
        rw [List.nil_append] at hP2
        obtain ⟨m, pb, hc1, hc2, hc3⟩ := ih [] rest
          (fun x hx => hWF x (by simp [hx])) hfin (by simpa using hP2)
        refine ⟨m + 1, pb, ?_, hc2, ?_⟩
        · simp only [List.take_succ_cons, List.map_cons, List.flatten_cons, hP1]
          rw [List.append_assoc, ← hc1]
          simp
        · simpa using hc3
      · -- c stops inside the first line: it is LF-free
        refine ⟨0, c, by simp, ?_, by rw [List.drop_zero, render_cons, ← heq]⟩
        have hWFl : WFLine l := hWF l (by simp)
        obtain ⟨Pb, hPb1, hPb2⟩ := line_remainder_structure c P l hWFl hP1 hPnil
        have hbody : (c ++ Pb) ++ [10] = lineBody l ++ [10] := by
          rw [List.append_assoc, ← hPb1, ← hP1, renderLine_eq_body]
        have hcl : c ++ Pb = lineBody l := List.append_cancel_right hbody
        intro hmem
        exact lineBody_no_10 l hWFl (hcl ▸ List.mem_append.mpr (Or.inl hmem))
    · -- the whole first line is inside c
      obtain ⟨m, pb, hc1, hc2, hc3⟩ := ih z rest
        (fun x hx => hWF x (by simp [hx])) hfin hz2.symm
      refine ⟨m + 1, pb, ?_, hc2, ?_⟩
      · rw [hz1, hc1]
        simp only [List.take_succ_cons, List.map_cons, List.flatten_cons]
        simp [List.append_assoc]
      · simpa using hc3

/-! ### The reader's chunk sequence -/

theorem chunksOfAux_congr (bs : Nat) :
    ∀ (fuel : Nat), ∀ (fuel' : Nat) (x : List Nat), 1 ≤ bs →
      x.length < fuel → x.length < fuel' →
      chunksOfAux fuel bs x = chunksOfAux fuel' bs x := by
  intro fuel
  induction fuel with
  | zero => intro fuel' x hbs h1 h2; omega
  | succ f ih =>
    intro fuel' x hbs h1 h2
    cases fuel' with
    | zero => omega
    | succ f' =>
      unfold chunksOfAux
      by_cases hx : x.isEmpty
      · rw [if_pos hx, if_pos hx]
      · rw [if_neg hx, if_neg hx]
        have hxne : x ≠ [] := by
          cases x with
          | nil => simp at hx
          | cons a as => simp
        have hlt : (x.drop bs).length < x.length := by
          simp only [List.length_drop]
          have : 0 < x.length := List.length_pos.mpr hxne
          omega
        rw [ih f' (x.drop bs) hbs (by omega) (by omega)]

theorem chunksOf_nil (bs : Nat) : chunksOf bs [] = [] := rfl

theorem chunksOf_cons (bs : Nat) (x : List Nat) (hbs : 1 ≤ bs) (hx : x ≠ []) :
    chunksOf bs x = x.take bs :: chunksOf bs (x.drop bs) := by
  unfold chunksOf
  have hxe : x.isEmpty = false := by
    cases x with
    | nil => exact absurd rfl hx
    | cons a as => rfl
  conv_lhs => rw [chunksOfAux]
  rw [if_neg (by simp [hxe])]
  have hlt : (x.drop bs).length < x.length := by
    simp only [List.length_drop]
    have : 0 < x.length := List.length_pos.mpr hx
    omega
  rw [chunksOfAux_congr bs (x.length) ((x.drop bs).length + 1) (x.drop bs) hbs
    (by omega) (by omega)]

theorem chunksOf_flatten (bs : Nat) (hbs : 1 ≤ bs) :
    ∀ (n : Nat) (x : List Nat), x.length ≤ n → (chunksOf bs x).flatten = x := by
  intro n
  induction n with
  | zero =>
    intro x hx
    have : x = [] := List.length_eq_zero.mp (by omega)
    subst this
    rfl
  | succ n ih =>
    intro x hx
    by_cases hxe : x = []
    · subst hxe; rfl
    · rw [chunksOf_cons bs x hbs hxe]
      simp only [List.flatten_cons]
      have hlt : (x.drop bs).length ≤ n := by
        simp only [List.length_drop]
        have : 0 < x.length := List.length_pos.mpr hxe
        omega
      rw [ih (x.drop bs) hlt]
      exact List.take_append_drop bs x

/-- Shape of the successive reads: every chunk fits the buffer, every chunk
followed by another real chunk is full (a short read only happens at EOF), and
the sequence ends with the zero-length EOF read. -/
def ChunksWF (bufSize : Nat) : List (List Nat) → Prop
  | [] => True
  | c :: cs => c.length ≤ bufSize ∧ (cs = [] → c = []) ∧
      (cs ≠ [] → c ≠ [] ∧ (cs = [[]] ∨ c.length = bufSize)) ∧ ChunksWF bufSize cs

theorem chunksOf_wf (bs : Nat) (hbs : 1 ≤ bs) :
    ∀ (n : Nat) (x : List Nat), x.length ≤ n → ChunksWF bs (chunksOf bs x ++ [[]]) := by
  intro n
  induction n with
  | zero =>
    intro x hx
    have : x = [] := List.length_eq_zero.mp (by omega)
    subst this
    exact ⟨by simp, fun _ => rfl, fun h => absurd rfl h, trivial⟩
  | succ n ih =>
    intro x hx
    by_cases hxe : x = []
    · subst hxe
      exact ⟨by simp, fun _ => rfl, fun h => absurd rfl h, trivial⟩
    · rw [chunksOf_cons bs x hbs hxe]
      have hlt : (x.drop bs).length ≤ n := by
        simp only [List.length_drop]
        have : 0 < x.length := List.length_pos.mpr hxe
        omega
      have hih := ih (x.drop bs) hlt
      refine ⟨by simp only [List.length_take]; omega, ?_, ?_, hih⟩
      · intro h
        exfalso
        cases hc : chunksOf bs (x.drop bs) with
        | nil => simp [hc] at h
        | cons a as => simp [hc] at h
      · intro hne
        constructor
        · intro htake
          rcases List.take_eq_nil_iff.mp htake with h | h
          · omega
          · exact hxe h
        · by_cases hde : x.drop bs = []
          · left
            rw [hde, chunksOf_nil]
            rfl
          · right
            simp only [List.length_take]
            have h1 : bs < x.length := by
              by_contra hcon
              apply hde
              rw [List.drop_eq_nil_iff]
              omega
            omega

/-! ### The driver invariant -/

/-- The worker-visible buffer state between iterations: all three buffers have
capacity `bufSize`; the carry holds `cl` at offset 0; the backup is empty. -/
def GoodState (bufSize : Nat) (cl : List Nat) (st : RunState) : Prop :=
  st.inBuff.length = bufSize ∧
  st.carry.buff.length = bufSize ∧ st.carry.off = 0 ∧ st.carry.len ≤ bufSize ∧
  st.carry.buff.take st.carry.len = cl ∧
  st.backup.buff.length = bufSize ∧ st.backup.len = 0 ∧ st.backup.off = 0

/-- The stream invariant: the carried bytes plus the unread chunks render the
remaining lines; the carry is LF-free; everything in sight fits `bufSize`. -/
def GoodStream (bufSize : Nat) (cl : List Nat) (cs : List (List Nat))
    (todo : List Line) (fin : List Nat) : Prop :=
  cl ++ cs.flatten = render todo fin ∧ 10 ∉ cl ∧
  (∀ l ∈ todo, WFLine l) ∧ WFFinal fin ∧
  (∀ l ∈ todo, (renderLine l).length ≤ bufSize) ∧
  (encAll fin).length ≤ bufSize ∧
  ChunksWF bufSize cs

theorem GoodState.carry_len (bufSize : Nat) (cl : List Nat) (st : RunState)
    (h : GoodState bufSize cl st) : st.carry.len = cl.length := by
  obtain ⟨_, h2, _, h4, h5, _⟩ := h
  rw [← h5]
  simp only [List.length_take]
  omega

/-- The carried bytes always fit the buffer (they are a proper prefix of a
line, or a prefix of the final content). -/
theorem GoodStream.cl_le (bufSize : Nat) (cl : List Nat) (cs : List (List Nat))
    (todo : List Line) (fin : List Nat)
    (h : GoodStream bufSize cl cs todo fin) : cl.length ≤ bufSize := by
  obtain ⟨heq, h10, hWF, hfin, hsz, hfsz, _⟩ := h
  cases todo with
  | nil =>
    rw [render_nil] at heq
    have := congrArg List.length heq
    simp only [List.length_append] at this
    omega
  | cons l todo =>
    rw [render_cons] at heq
    obtain ⟨P, hP1, hP2, _⟩ := head_prefix_of_line cl cs.flatten
      (render todo fin) l h10 heq
    have h1 := congrArg List.length hP1
    simp only [List.length_append] at h1
    have h2 : 0 < P.length := List.length_pos.mpr hP2
    have h3 := hsz l (by simp)
    omega

/-- Packaged form of `reverse_seg_recent_spec` for a fresh (empty, offset-0)
carry: existential output with the emitted data and the new carry's contents
spelled out without conditionals. -/
theorem reverse_seg_recent_run (seg carry backup : Segment) (js : List Segment)
    (inside : List Line) (pb : List Nat)
    (hWF : ∀ l ∈ inside, WFLine l) (hpb : 10 ∉ pb)
    (hlen : seg.off + seg.len ≤ seg.buff.length)
    (hwin : (seg.buff.drop seg.off).take seg.len = (inside.map renderLine).flatten ++ pb)
    (hcoff : carry.off = 0) (hclen0 : carry.len = 0)
    (hpbcap : pb.length ≤ carry.buff.length) :
    ∃ (seg2 carry2 : Segment),
      reverse_seg_recent ⟨seg, carry, backup, ⟨js⟩⟩ =
        some ⟨seg2, carry2, backup, ⟨js ++ [seg2]⟩⟩ ∧
      segData seg2 = (inside.map specLine).flatten ∧
      seg2.buff.length = seg.buff.length ∧
      carry2.off = 0 ∧ carry2.len = pb.length ∧
      carry2.buff.take carry2.len = pb ∧
      carry2.buff.length = carry.buff.length := by
  have hwlen : seg.len = ((inside.map renderLine).flatten).length + pb.length := by
    have h1 := congrArg List.length hwin
    simp only [List.length_take, List.length_drop, List.length_append] at h1
    omega
  have hflen : ((inside.map specLine).flatten).length =
      ((inside.map renderLine).flatten).length := flatten_specLine_length _
  have hoff : (seg.buff.take seg.off).length = seg.off := by
    simp only [List.length_take]
    omega
  have hrsr := reverse_seg_recent_spec ⟨seg, carry, backup, ⟨js⟩⟩ inside pb hWF hpb
    (by simpa using hlen) (by simpa using hwin)
  dsimp only at hrsr
  refine ⟨_, _, hrsr, ?_, ?_, ?_, ?_, ?_, ?_⟩
  · -- emitted data
    unfold segData
    dsimp only
    have hdA := List.drop_left (seg.buff.take seg.off)
      (((inside.map specLine).flatten ++ pb) ++ seg.buff.drop (seg.off + seg.len))
    rw [hoff] at hdA
    rw [List.append_assoc, hdA]
    by_cases hpbe : pb = []
    · subst hpbe
      simp only [List.isEmpty_nil, eq_self_iff_true, if_true]
      simp only [List.append_nil, List.length_nil, Nat.add_zero] at hwlen ⊢
      rw [hwlen, ← hflen]
      exact List.take_left _ _
    · rw [if_neg (by cases pb with | nil => exact absurd rfl hpbe | cons a b => simp)]
      rw [← hflen, List.append_assoc]
      exact List.take_left _ _
  · -- buffer length preserved
    dsimp only
    simp only [List.length_append, List.length_take, List.length_drop, hflen]
    omega
  · -- carry offset
    by_cases hpbe : pb = []
    · subst hpbe
      simp only [List.isEmpty_nil, eq_self_iff_true, if_true]
      exact hcoff
    · rw [if_neg (by cases pb with | nil => exact absurd rfl hpbe | cons a b => simp)]
  · -- carry length
    by_cases hpbe : pb = []
    · subst hpbe
      simp only [List.isEmpty_nil, eq_self_iff_true, if_true]
      simpa using hclen0
    · rw [if_neg (by cases pb with | nil => exact absurd rfl hpbe | cons a b => simp)]
  · -- carry data
    by_cases hpbe : pb = []
    · subst hpbe
      simp only [List.isEmpty_nil, eq_self_iff_true, if_true]
      rw [hclen0]
      simp
    · rw [if_neg (by cases pb with | nil => exact absurd rfl hpbe | cons a b => simp)]
      dsimp only
      rw [writeNats_zero]
      exact List.take_left pb (carry.buff.drop pb.length)
  · -- carry capacity preserved
    by_cases hpbe : pb = []
    · subst hpbe
      simp only [List.isEmpty_nil, eq_self_iff_true, if_true]
    · rw [if_neg (by cases pb with | nil => exact absurd rfl hpbe | cons a b => simp)]
      dsimp only
      rw [writeNats_length carry.buff 0 pb (by simpa using hpbcap)]

/-- One driver iteration preserves the invariants and emits exactly the spec
output of the lines it completes. -/
theorem step_spec (bufSize : Nat) (cl : List Nat) (c : List Nat)
    (cs : List (List Nat)) (todo : List Line) (fin : List Nat) (st : RunState)
    (hgs : GoodStream bufSize cl (c :: cs) todo fin)
    (hst : GoodState bufSize cl st) :
    ∃ (seg2 carry2 backup2 : Segment) (job : Job),
      reverse_segment (readChunk st.inBuff c) st.carry st.backup =
        some ⟨seg2, carry2, backup2, job⟩ ∧
      ∃ cl' todo' fin',
        jobBytes job ++ specOut todo' fin' = specOut todo fin ∧
        GoodStream bufSize cl' cs todo' fin' ∧
        GoodState bufSize cl' ⟨seg2.buff, carry2, backup2⟩ ∧
        (cs = [] → cl' = []) := by
  obtain ⟨heq, h10cl, hWF, hfin, hsz, hfsz, hcwf⟩ := hgs
  obtain ⟨hib, hcb, hco, hclen, hcdata, hbb, hbl, hbo⟩ := hst
  obtain ⟨hc_le, hc_last, hc_full, hcwf2⟩ := hcwf
  have hclen_eq : st.carry.len = cl.length := by
    rw [← hcdata]
    simp only [List.length_take]
    omega
  have hseg : readChunk st.inBuff c = ⟨c ++ st.inBuff.drop c.length, c.length, 0⟩ := by
    rw [readChunk, writeNats_zero]
  set J := st.inBuff.drop c.length with hJ
  have hJlen : J.length = bufSize - c.length := by
    rw [hJ]
    simp only [List.length_drop]
    omega
  have hsblen : (c ++ J).length = bufSize := by
    simp only [List.length_append]
    omega
  have htakec : (c ++ J).take c.length = c := List.take_left c J
  have heq2 : cl ++ (c ++ cs.flatten) = render todo fin := by
    rw [← heq]
    simp
  rw [hseg]
  unfold reverse_segment
  dsimp only
  by_cases hclne : cl = []
  · -- empty carry: straight to the line loop
    subst hclne
    have hcl0 : st.carry.len = 0 := by simpa using hclen_eq
    rw [if_neg (by omega)]
    simp only [List.nil_append] at heq2
    obtain ⟨m, pb, hc1, hpb10, hc3⟩ := chunk_decomp todo fin c cs.flatten hWF hfin heq2
    have hpble : pb.length ≤ c.length := by
      have := congrArg List.length hc1
      simp only [List.length_append] at this
      omega
    obtain ⟨seg2, carry2, hrun, hdata2, hblen2, hcoff2, hclen2, hcdata2, hcblen2⟩ :=
      reverse_seg_recent_run ⟨c ++ J, c.length, 0⟩ st.carry st.backup []
        (todo.take m) pb (fun l hl => hWF l (List.mem_of_mem_take hl)) hpb10
        (by simp)
        (by simpa using hc1) hco hcl0 (by omega)
    rw [hrun]
    refine ⟨seg2, carry2, st.backup, ⟨[] ++ [seg2]⟩, rfl,
      pb, todo.drop m, fin, ?_, ?_, ?_, ?_⟩
    · -- emitted bytes make up the completed lines' spec output
      have hjb : jobBytes ⟨[] ++ [seg2]⟩ = segData seg2 := by
        simp [jobBytes]
      rw [hjb, hdata2]
      unfold specOut
      have hsplit : todo = todo.take m ++ todo.drop m := (List.take_append_drop m todo).symm
      conv_rhs => rw [hsplit]
      simp only [List.map_append, List.flatten_append, List.map_take, List.map_drop,
        List.append_assoc]
    · -- stream invariant
      exact ⟨hc3, hpb10, fun l hl => hWF l (List.mem_of_mem_drop hl), hfin,
        fun l hl => hsz l (List.mem_of_mem_drop hl), hfsz, hcwf2⟩
    · -- state invariant
      refine ⟨?_, ?_, hcoff2, ?_, ?_, hbb, hbl, hbo⟩
      · rw [hblen2]
        exact hsblen
      · rw [hcblen2, hcb]
      · rw [hclen2]
        omega
      · exact hcdata2
    · -- at the last (EOF) chunk nothing remains carried
      intro hcs
      have hcnil : c = [] := hc_last hcs
      subst hcnil
      have : pb = [] := by
        have h2 := hc1.symm
        rw [List.append_eq_nil] at h2
        exact h2.2
      exact this
  · -- non-empty carry
    have hclpos : 0 < cl.length := List.length_pos.mpr hclne
    rw [if_pos (by omega)]
    rw [htakec]
    by_cases h10c : 10 ∈ c
    · -- the chunk completes the carried line
      cases todo with
      | nil =>
        exfalso
        rw [render_nil] at heq2
        exact encAll_not_mem_10 fin hfin.1 hfin.2
          (heq2 ▸ (List.mem_append.mpr (Or.inr (List.mem_append.mpr (Or.inl h10c)))))
      | cons l₁ todo₂ =>
        rw [render_cons] at heq2
        obtain ⟨P, hP1, hP2, hX⟩ := head_prefix_of_line cl (c ++ cs.flatten)
          (render todo₂ fin) l₁ h10cl heq2
        have hWFl₁ : WFLine l₁ := hWF l₁ (by simp)
        obtain ⟨Pb, hPb1, hPb10⟩ := line_remainder_structure cl P l₁ hWFl₁ hP1 hP2
        rw [hPb1] at hX
        have hX2 : c ++ cs.flatten = Pb ++ (10 :: render todo₂ fin) := by
          rw [hX]; simp
        obtain ⟨z', hz1, hz2⟩ :
            ∃ z', c = Pb ++ 10 :: z' ∧ render todo₂ fin = z' ++ cs.flatten := by
          rcases List.append_eq_append_iff.mp hX2 with ⟨a, ha1, ha2⟩ | ⟨z, hzz1, hzz2⟩
          · exact absurd (ha1 ▸ List.mem_append.mpr (Or.inl h10c)) hPb10
          · cases z with
            | nil =>
              rw [List.append_nil] at hzz1
              exact absurd (hzz1 ▸ h10c) hPb10
            | cons w z' =>
              simp only [List.cons_append] at hzz2
              injection hzz2 with hw htail
              exact ⟨z', by rw [hzz1, ← hw], htail⟩
        have hfind : findLF c = some Pb.length := by
          rw [hz1]
          exact findLF_append_10 Pb z' hPb10
        rw [hfind]
        dsimp only
        -- lengths
        have hPlen : P.length = Pb.length + 1 := by
          rw [hPb1]; simp
        have hrl₁len : (renderLine l₁).length = cl.length + (Pb.length + 1) := by
          have := congrArg List.length hP1
          simp only [List.length_append] at this
          omega
        have hrl₁le : (renderLine l₁).length ≤ bufSize := hsz l₁ (by simp)
        have hclen_c : c.length = Pb.length + 1 + z'.length := by
          have := congrArg List.length hz1
          simp only [List.length_append, List.length_cons] at this
          omega
        have hsplit2 : c ++ J = Pb ++ (10 :: (z' ++ J)) := by
          rw [hz1]; simp
        -- attach the prefix to the carry
        obtain ⟨cb2, hhc, hcb2take, hcb2len⟩ :=
          handle_carry_spec ⟨⟨c ++ J, c.length, 0⟩, st.carry, st.backup, ⟨[]⟩⟩
          Pb.length l₁ cl hWFl₁ hcdata
          (by dsimp only; omega)
          (by
            dsimp only
            rw [hsplit2, @List.take_append _ Pb (10 :: (z' ++ J)) 1]
            rw [hP1, hPb1]
            simp)
          (by dsimp only; omega)
        dsimp only at hhc hcb2take hcb2len
        simp only [List.nil_append] at hhc
        rw [hhc]
        -- the rest of the chunk holds whole lines plus a raw tail
        obtain ⟨m, pb, hzz1, hpb10, hc3⟩ :=
          chunk_decomp todo₂ fin z' cs.flatten
          (fun l hl => hWF l (by simp [hl])) hfin hz2.symm
        have hpble : pb.length ≤ z'.length := by
          have := congrArg List.length hzz1
          simp only [List.length_append] at this
          omega
        obtain ⟨seg2, carry2, hrun, hdata2, hblen2, hcoff2, hclen2, hcdata2, hcblen2⟩ :=
          reverse_seg_recent_run ⟨c ++ J, c.length - (Pb.length + 1), Pb.length + 1⟩
            st.backup ⟨cb2, 0, 0⟩ [⟨cb2, st.carry.len + (Pb.length + 1), 0⟩]
            (todo₂.take m) pb (fun l hl => hWF l (by simp [List.mem_of_mem_take hl]))
            hpb10
            (by dsimp only; omega)
            (by
              dsimp only
              have hd : (c ++ J).drop (Pb.length + 1) = z' ++ J := by
                have h1 : c ++ J = (Pb ++ [10]) ++ (z' ++ J) := by
                  rw [hsplit2]; simp
                have h2 := List.drop_left (Pb ++ [10]) (z' ++ J)
                have h3 : (Pb ++ [10]).length = Pb.length + 1 := by simp
                rw [h3] at h2
                rw [h1, h2]
              rw [hd]
              have h4 : c.length - (Pb.length + 1) = z'.length := by omega
              rw [h4, List.take_left, hzz1])
            hbo hbl (by omega)
        rw [hrun]
        refine ⟨seg2, carry2, ⟨cb2, 0, 0⟩, _, rfl, pb, todo₂.drop m, fin, ?_, ?_, ?_, ?_⟩
        · -- emitted bytes: the completed carried line, then the whole lines
          have hjb : jobBytes ⟨[⟨cb2, st.carry.len + (Pb.length + 1), 0⟩] ++ [seg2]⟩ =
              segData ⟨cb2, st.carry.len + (Pb.length + 1), 0⟩ ++ segData seg2 := by
            simp [jobBytes]
          rw [hjb, hdata2]
          have hem : segData ⟨cb2, st.carry.len + (Pb.length + 1), 0⟩ = specLine l₁ := by
            unfold segData
            dsimp only
            rw [List.drop_zero]
            exact hcb2take
          rw [hem]
          rw [specOut_cons]
          unfold specOut
          have hsplit3 : todo₂ = todo₂.take m ++ todo₂.drop m :=
            (List.take_append_drop m todo₂).symm
          conv_rhs => rw [hsplit3]
          simp only [List.map_append, List.flatten_append, List.map_take, List.map_drop,
            List.append_assoc]
        · -- stream invariant
          exact ⟨hc3, hpb10, fun l hl => hWF l (by simp [List.mem_of_mem_drop hl]), hfin,
            fun l hl => hsz l (by simp [List.mem_of_mem_drop hl]), hfsz, hcwf2⟩
        · -- state invariant
          refine ⟨?_, ?_, hcoff2, ?_, hcdata2, ?_, rfl, rfl⟩
          · rw [hblen2]
            exact hsblen
          · rw [hcblen2, hbb]
          · rw [hclen2]
            omega
          · rw [hcb2len, hcb]
        · -- at the last (EOF) chunk nothing remains carried
          intro hcs
          exact absurd (hc_last hcs ▸ h10c) (List.not_mem_nil 10)
    · -- no terminator in the chunk: EOF-carry path
      have hfind : findLF c = none := (findLF_eq_none_iff c).mpr h10c
      rw [hfind]
      -- this only happens at the end of the stream: what remains is the final line
      have hkey : cl ++ c = encAll fin ∧ todo = [] ∧ cs.flatten = [] := by
        by_cases hcs : cs = []
        · have hcnil : c = [] := hc_last hcs
          subst hcnil
          subst hcs
          simp only [List.flatten_nil, List.append_nil] at heq2
          have htodo : todo = [] := by
            cases todo with
            | nil => rfl
            | cons l₁ todo₂ =>
              exfalso
              exact h10cl (heq2 ▸ ten_mem_render_cons l₁ todo₂ fin)
          subst htodo
          rw [render_nil] at heq2
          exact ⟨by simpa using heq2, rfl, rfl⟩
        · obtain ⟨hcne, hfull⟩ := hc_full hcs
          rcases hfull with hcs2 | hclen_full
          · subst hcs2
            simp only [List.flatten_cons, List.flatten_nil, List.append_nil] at heq2
            have htodo : todo = [] := by
              cases todo with
              | nil => rfl
              | cons l₁ todo₂ =>
                exfalso
                have h10r := ten_mem_render_cons l₁ todo₂ fin
                rw [← heq2] at h10r
                rcases List.mem_append.mp h10r with h | h
                · exact h10cl h
                · exact h10c h
            subst htodo
            rw [render_nil] at heq2
            exact ⟨heq2, rfl, rfl⟩
          · exfalso
            cases todo with
            | nil =>
              rw [render_nil] at heq2
              have := congrArg List.length heq2
              simp only [List.length_append] at this
              omega
            | cons l₁ todo₂ =>
              rw [render_cons] at heq2
              obtain ⟨P, hP1, hP2, hX⟩ := head_prefix_of_line cl (c ++ cs.flatten)
                (render todo₂ fin) l₁ h10cl heq2
              have hWFl₁ : WFLine l₁ := hWF l₁ (by simp)
              obtain ⟨Pb, hPb1, hPb10⟩ := line_remainder_structure cl P l₁ hWFl₁ hP1 hP2
              have hPlt : P.length < c.length := by
                have h1 := congrArg List.length hP1
                simp only [List.length_append] at h1
                have h2 := hsz l₁ (by simp)
                omega
              rcases List.append_eq_append_iff.mp hX with ⟨a, ha1, ha2⟩ | ⟨z, hzz1, hzz2⟩
              · have := congrArg List.length ha1
                simp only [List.length_append] at this
                omega
              · apply h10c
                rw [hzz1, hPb1]
                simp
      obtain ⟨hfine, htodo, hflat⟩ := hkey
      subst htodo
      obtain ⟨cb2, hhce, hcb2take, hcb2len⟩ :=
        handle_carry_eof_spec ⟨⟨c ++ J, c.length, 0⟩, st.carry, st.backup, ⟨[]⟩⟩
          fin cl hfin.1 hcdata
          (by
            dsimp only
            have := congrArg List.length hfine
            simp only [List.length_append] at this
            omega)
          (by dsimp only; rw [htakec]; exact hfine)
          (by dsimp only; omega)
      dsimp only at hhce hcb2take hcb2len
      rw [hhce]
      refine ⟨⟨c ++ J, 0, 0⟩, st.backup, ⟨cb2, 0, 0⟩, _, rfl, [], [], [], ?_, ?_, ?_,
        fun _ => rfl⟩
      · -- emitted bytes: the reversed final line
        have hjb : jobBytes ⟨([] : List Segment) ++
            [⟨cb2, st.carry.len + c.length, st.carry.off⟩]⟩ =
            segData ⟨cb2, st.carry.len + c.length, st.carry.off⟩ := by
          simp [jobBytes]
        rw [hjb]
        unfold segData
        dsimp only
        rw [hco, List.drop_zero, hcb2take]
        rw [specOut_nil, specOut_nil]
        simp [encAll_nil]
      · -- stream invariant
        refine ⟨?_, by simp, by simp, ⟨by simp, by simp⟩, by simp, ?_, hcwf2⟩
        · rw [hflat]
          rfl
        · simp [encAll_nil]
      · -- state invariant
        refine ⟨hsblen, hbb, hbo, by dsimp only; omega, ?_, ?_, rfl, rfl⟩
        · rw [hbl]
          simp
        · rw [hcb2len, hcb]

/-- Running the driver loop over a well-formed chunk stream yields exactly the
spec output of the remaining lines. -/
theorem runChunks_spec (bufSize : Nat) :
    ∀ (cs : List (List Nat)) (cl : List Nat) (todo : List Line) (fin : List Nat)
      (st : RunState),
      GoodStream bufSize cl cs todo fin →
      GoodState bufSize cl st →
      (cs = [] → cl = []) →
      runChunks cs st = some (specOut todo fin) := by
  intro cs
  induction cs with
  | nil =>
    intro cl todo fin st hgs hst hcl
    have hclnil : cl = [] := hcl rfl
    obtain ⟨heq, _, _, _, _, _, _⟩ := hgs
    rw [hclnil] at heq
    simp only [List.flatten_nil, List.append_nil, List.nil_append] at heq
    obtain ⟨htodo, hfin⟩ := render_eq_nil todo fin heq.symm
    subst htodo; subst hfin
    rw [runChunks, specOut_nil]
    simp [encAll]
  | cons c cs ih =>
    intro cl todo fin st hgs hst hcl
    obtain ⟨seg2, carry2, backup2, job, hrs, cl', todo', fin', hout, hgs', hst', hcl'⟩ :=
      step_spec bufSize cl c cs todo fin st hgs hst
    rw [runChunks, hrs]
    dsimp only
    rw [ih cl' todo' fin' ⟨seg2.buff, carry2, backup2⟩ hgs' hst' hcl']
    dsimp only
    rw [hout]

/-- The whole-file transform maps a rendered line stream to its spec output. -/
theorem runSeg_render (bufSize : Nat) (hbs : 1 ≤ bufSize)
    (ls : List Line) (fin : List Nat)
    (hWF : ∀ l ∈ ls, WFLine l) (hfin : WFFinal fin)
    (hsz : ∀ l ∈ ls, (renderLine l).length ≤ bufSize)
    (hfsz : (encAll fin).length ≤ bufSize) :
    runSeg bufSize (render ls fin) = some (specOut ls fin) := by
  unfold runSeg
  apply runChunks_spec bufSize (chunksOf bufSize (render ls fin) ++ [[]])
    [] ls fin (initState bufSize)
  · refine ⟨?_, by simp, hWF, hfin, hsz, hfsz,
      chunksOf_wf bufSize hbs (render ls fin).length (render ls fin) le_rfl⟩
    rw [List.nil_append, List.flatten_append,
      chunksOf_flatten bufSize hbs (render ls fin).length (render ls fin) le_rfl]
    simp
  · exact ⟨by simp [initState], by simp [initState], rfl, by simp [initState],
      by simp [initState], by simp [initState], rfl, rfl⟩
  · intro h
    exact absurd (List.append_eq_nil.mp h).2 (by simp)

/-- C1: for every input byte stream that is valid UTF-8 (rendered from lines of
scalar code points) in which every line, content plus terminator, fits within
`buf_size` bytes, the whole-file transform — repeatedly applying
`reverse_segment` to successive chunks and emitting each returned job's
segments in order, with a final zero-length EOF call — produces exactly the
concatenation, for each input line in order, of the code-point-reversed content
followed by that line's original terminator bytes, and a final unterminated
line is emitted reversed with no terminator. -/
theorem C1_whole_file_transform (bufSize : Nat) (hbs : 1 ≤ bufSize)
    (ls : List Line) (fin : List Nat)
    (hWF : ∀ l ∈ ls, WFLine l) (hfin : WFFinal fin)
    (hsz : ∀ l ∈ ls, (renderLine l).length ≤ bufSize)
    (hfsz : (encAll fin).length ≤ bufSize) :
    runSeg bufSize (render ls fin) = some (specOut ls fin) :=
  runSeg_render bufSize hbs ls fin hWF hfin hsz hfsz

/-- Witness for C1 at a concrete input: one line "hé\n" with buffer size 8. -/
theorem C1_whole_file_transform_witness :
    1 ≤ 8 ∧
    (∀ l ∈ [Line.mk [104, 233] Term.lf], WFLine l) ∧
    WFFinal [] ∧
    (∀ l ∈ [Line.mk [104, 233] Term.lf], (renderLine l).length ≤ 8) ∧
    (encAll []).length ≤ 8 ∧
    runSeg 8 (render [Line.mk [104, 233] Term.lf] []) =
      some (specOut [Line.mk [104, 233] Term.lf] []) := by
  refine ⟨by decide, ?_, ?_, ?_, by decide, ?_⟩
  · intro l hl
    simp only [List.mem_singleton] at hl
    subst hl
    refine ⟨?_, by decide, by decide⟩
    intro c hc
    unfold ScalarCp
    simp only [List.mem_cons, List.not_mem_nil, or_false] at hc
    rcases hc with h | h <;> subst h <;> omega
  · exact ⟨by simp, by simp⟩
  · intro l hl
    simp only [List.mem_singleton] at hl
    subst hl
    decide
  · apply C1_whole_file_transform 8 (by decide) [Line.mk [104, 233] Term.lf] []
    · intro l hl
      simp only [List.mem_singleton] at hl
      subst hl
      refine ⟨?_, by decide, by decide⟩
      intro c hc
      unfold ScalarCp
      simp only [List.mem_cons, List.not_mem_nil, or_false] at hc
      rcases hc with h | h <;> subst h <;> omega
    · exact ⟨by simp, by simp⟩
    · intro l hl
      simp only [List.mem_singleton] at hl
      subst hl
      decide
    · decide

/-- C5: on a range holding the UTF-8 encoding of a sequence of scalar code
points, `reverse_range` returns success and rewrites the range in place to the
encoding of the reversed code-point sequence, leaving the surrounding bytes
untouched; and whenever `to ≤ from` the call is a no-op returning success. -/
theorem C5_reverse_range_valid (pre post cps : List Nat)
    (h : ∀ c ∈ cps, ScalarCp c) :
    reverse_range (pre ++ encAll cps ++ post) pre.length
        (pre.length + (encAll cps).length) =
      (true, pre ++ encAll cps.reverse ++ post) ∧
    (∀ (buf : List Nat) (f t : Nat), t ≤ f → reverse_range buf f t = (true, buf)) := by
  refine ⟨reverse_range_encAll pre post cps h, ?_⟩
  intro buf f t hle
  unfold reverse_range
  rw [if_pos hle]

/-- Witness for C5: reversing "hé" (bytes 68 C3 A9) between guard bytes. -/
theorem C5_reverse_range_valid_witness :
    (∀ c ∈ [104, 233], ScalarCp c) ∧
    (reverse_range ([97] ++ encAll [104, 233] ++ [98]) [97].length
        ([97].length + (encAll [104, 233]).length) =
      (true, [97] ++ encAll ([104, 233] : List Nat).reverse ++ [98]) ∧
    (∀ (buf : List Nat) (f t : Nat), t ≤ f → reverse_range buf f t = (true, buf))) := by
  have hs : ∀ c ∈ ([104, 233] : List Nat), ScalarCp c := by
    intro c hc
    unfold ScalarCp
    simp only [List.mem_cons, List.not_mem_nil, or_false] at hc
    rcases hc with h | h <;> subst h <;> omega
  exact ⟨hs, C5_reverse_range_valid [97] [98] [104, 233] hs⟩

/-- C6 counterexample: the lone byte 0xC2 is malformed UTF-8 — it encodes no
sequence of scalar code points — yet `reverse_range` returns success on the
range holding exactly that byte, so failure is not equivalent to malformed
input. -/
theorem C6_failure_iff_malformed_cex :
    (reverse_range [0xC2] 0 1).1 = true ∧
    ∀ cps : List Nat, encAll cps ≠ [0xC2] := by
  refine ⟨by decide, ?_⟩
  intro cps h
  have := encAll_singleton_lt cps 0xC2 h
  omega

/-- C6 (amended): failure is sound but not complete for malformedness — if
`reverse_range` fails on a range, that range is not the encoding of any
sequence of scalar code points; and a non-empty range consisting solely of
continuation bytes (a continuation run that reaches `to` without a valid lead)
does fail. -/
theorem C6_reverse_range_failure (pre post s : List Nat) :
    ((reverse_range (pre ++ s ++ post) pre.length (pre.length + s.length)).1 =
        false →
      ∀ cps : List Nat, (∀ c ∈ cps, ScalarCp c) → encAll cps ≠ s) ∧
    (s ≠ [] → (∀ b ∈ s, is_cont b = true) →
      (reverse_range (pre ++ s ++ post) pre.length (pre.length + s.length)).1 =
        false) := by
  constructor
  · intro hfail cps hcps henc
    rw [← henc] at hfail
    rw [reverse_range_false_not_encAll pre post cps hcps] at hfail
    exact absurd hfail (by simp)
  · exact reverse_range_allcont_false pre post s

/-- Witness for C6: a single continuation byte 0x80 makes the call fail. -/
theorem C6_reverse_range_failure_witness :
    (([0x80] : List Nat) ≠ []) ∧ (∀ b ∈ ([0x80] : List Nat), is_cont b = true) ∧
    (reverse_range (([] : List Nat) ++ [0x80] ++ [])
        (List.length ([] : List Nat))
        (List.length ([] : List Nat) + [0x80].length)).1 = false :=
  ⟨by decide, by decide,
    (C6_reverse_range_failure [] [] [0x80]).2 (by decide) (by decide)⟩

/-- C7: every call to `reverse_range buf from to`, whether it succeeds or
fails, leaves the buffer's length and every byte outside `[from, to)`
unchanged. -/
theorem C7_reverse_range_frame (buf : List Nat) (f t : Nat)
    (ht : t ≤ buf.length) :
    (reverse_range buf f t).2.length = buf.length ∧
    (reverse_range buf f t).2.take f = buf.take f ∧
    (reverse_range buf f t).2.drop t = buf.drop t :=
  ⟨reverse_range_length buf f t ht, (reverse_range_frame buf f t ht).1,
    (reverse_range_frame buf f t ht).2⟩

/-- Witness for C7: a failing call on bytes 61 80 C3 A9 62 keeps the guard
bytes in place. -/
theorem C7_reverse_range_frame_witness :
    (4 ≤ [97, 0x80, 0xC3, 0xA9, 98].length) ∧
    ((reverse_range [97, 0x80, 0xC3, 0xA9, 98] 1 4).2.length =
      [97, 0x80, 0xC3, 0xA9, 98].length ∧
    (reverse_range [97, 0x80, 0xC3, 0xA9, 98] 1 4).2.take 1 =
      [97, 0x80, 0xC3, 0xA9, 98].take 1 ∧
    (reverse_range [97, 0x80, 0xC3, 0xA9, 98] 1 4).2.drop 4 =
      [97, 0x80, 0xC3, 0xA9, 98].drop 4) :=
  ⟨by decide, C7_reverse_range_frame [97, 0x80, 0xC3, 0xA9, 98] 1 4 (by decide)⟩

/-- C10: a failing `reverse_range` call does not restore the range — here the
range 80 C3 A9 (a stray continuation byte followed by "é") is reported
malformed, yet the buffer keeps the byte-reversed range with the completed
code-point repair of C3 A9, not the input bytes: no atomicity on error. -/
theorem C10_failure_modifies_range :
    (reverse_range [97, 0x80, 0xC3, 0xA9, 98] 1 4).1 = false ∧
    (reverse_range [97, 0x80, 0xC3, 0xA9, 98] 1 4).2 =
      [97, 0xC3, 0xA9, 0x80, 98] ∧
    (reverse_range [97, 0x80, 0xC3, 0xA9, 98] 1 4).2 ≠
      [97, 0x80, 0xC3, 0xA9, 98] := by
  refine ⟨by decide, by decide, by decide⟩

/-- C3: `reverse_segment` with a non-empty carry and an input holding no LF
appends the input's bytes to the carry, code-point-reverses the entire carry
content (no terminator excluded), emits the carry as the job's single output
segment, and zeroes the input segment's length. -/
theorem C3_eof_carry_path (seg carry backup : Segment) (fin cl : List Nat)
    (hclpos : 0 < carry.len)
    (hno : findLF (seg.buff.take seg.len) = none)
    (hfin : ∀ c ∈ fin, ScalarCp c)
    (hcl : carry.buff.take carry.len = cl)
    (hcap : carry.len + seg.len ≤ carry.buff.length)
    (hline : cl ++ seg.buff.take seg.len = encAll fin)
    (hi : seg.len ≤ seg.buff.length) :
    ∃ cb2,
      reverse_segment seg carry backup =
        some ⟨⟨seg.buff, 0, 0⟩, backup, ⟨cb2, 0, 0⟩,
          ⟨[⟨cb2, carry.len + seg.len, carry.off⟩]⟩⟩ ∧
      cb2.take (carry.len + seg.len) = encAll fin.reverse ∧
      cb2.length = carry.buff.length := by
  obtain ⟨cb2, h1, h2, h3⟩ :=
    handle_carry_eof_spec ⟨seg, carry, backup, ⟨[]⟩⟩ fin cl hfin hcl hcap hline hi
  dsimp only at h1 h2 h3
  refine ⟨cb2, ?_, h2, h3⟩
  unfold reverse_segment
  rw [if_pos hclpos, hno]
  rw [h1]
  simp

/-- Witness for C3: carry "h", input "i" with no LF, combined line "hi". -/
theorem C3_eof_carry_path_witness :
    0 < (1 : Nat) ∧
    findLF (([105, 0] : List Nat).take 1) = none ∧
    (∀ c ∈ ([104, 105] : List Nat), ScalarCp c) ∧
    ([104, 0, 0, 0] : List Nat).take 1 = [104] ∧
    1 + 1 ≤ ([104, 0, 0, 0] : List Nat).length ∧
    ([104] : List Nat) ++ ([105, 0] : List Nat).take 1 = encAll [104, 105] ∧
    1 ≤ ([105, 0] : List Nat).length ∧
    ∃ cb2,
      reverse_segment ⟨[105, 0], 1, 0⟩ ⟨[104, 0, 0, 0], 1, 0⟩ ⟨[0, 0], 0, 0⟩ =
        some ⟨⟨[105, 0], 0, 0⟩, ⟨[0, 0], 0, 0⟩, ⟨cb2, 0, 0⟩,
          ⟨[⟨cb2, 1 + 1, 0⟩]⟩⟩ ∧
      cb2.take (1 + 1) = encAll ([104, 105] : List Nat).reverse ∧
      cb2.length = ([104, 0, 0, 0] : List Nat).length := by
  have hs : ∀ c ∈ ([104, 105] : List Nat), ScalarCp c := by
    intro c hc
    unfold ScalarCp
    simp only [List.mem_cons, List.not_mem_nil, or_false] at hc
    rcases hc with h | h <;> subst h <;> omega
  refine ⟨by decide, by decide, hs, by decide, by decide, by decide, by decide, ?_⟩
  exact C3_eof_carry_path ⟨[105, 0], 1, 0⟩ ⟨[104, 0, 0, 0], 1, 0⟩ ⟨[0, 0], 0, 0⟩
    [104, 105] [104] (by decide) (by decide) hs (by decide) (by decide)
    (by decide) (by decide)

/-- The spec output of a line stream is itself the rendering of the stream
with each line's content reversed. -/
theorem specOut_eq_render_reverse (ls : List Line) (fin : List Nat) :
    specOut ls fin =
      render (ls.map fun l => Line.mk l.content.reverse l.term) fin.reverse := by
  unfold specOut render
  rw [List.map_map]
  rfl

/-- C2 counterexample: the input "\rab\n" — a single bare-LF line whose
content begins with CR — contains no malformed sequences, its last line ends
with a terminator, and it fits in the buffer, yet applying the whole-file
transform twice yields "ab\r\n", not the input: the first pass moves the
leading CR next to the LF, and the second pass reclassifies the line as
CRLF-terminated and keeps the CR in place. -/
theorem C2_involution_cex :
    [13, 97, 98, 10] = render [Line.mk [13, 97, 98] Term.lf] [] ∧
    runSeg 8 [13, 97, 98, 10] = some [98, 97, 13, 10] ∧
    runSeg 8 [98, 97, 13, 10] = some [97, 98, 13, 10] ∧
    ([97, 98, 13, 10] : List Nat) ≠ [13, 97, 98, 10] :=
  ⟨by decide, by decide, by decide, by decide⟩

/-- C2 (amended): the whole-file transform is an involution on inputs whose
lines are well formed, fully terminated and fit in the buffer, provided
additionally that no bare-LF line's content begins with a CR code point (such
a CR would be reclassified as part of a CRLF terminator on the second pass). -/
theorem C2_involution_amended (bufSize : Nat) (hbs : 1 ≤ bufSize)
    (ls : List Line)
    (hWF : ∀ l ∈ ls, WFLine l)
    (hhead : ∀ l ∈ ls, l.term = Term.lf → l.content.head? ≠ some 13)
    (hsz : ∀ l ∈ ls, (renderLine l).length ≤ bufSize) :
    (runSeg bufSize (render ls [])).bind (runSeg bufSize) =
      some (render ls []) := by
  have hfin : WFFinal ([] : List Nat) :=
    ⟨fun c hc => absurd hc (List.not_mem_nil c), List.not_mem_nil 10⟩
  have h1 := runSeg_render bufSize hbs ls [] hWF hfin hsz
    (by rw [encAll_nil]; simp)
  rw [h1, Option.some_bind]
  have hspec : specOut ls [] =
      render (ls.map fun l => Line.mk l.content.reverse l.term) [] := by
    rw [specOut_eq_render_reverse]
    rfl
  rw [hspec]
  have hWF' : ∀ l ∈ ls.map fun l => Line.mk l.content.reverse l.term,
      WFLine l := by
    intro l hl
    obtain ⟨l0, hl0, rfl⟩ := List.mem_map.mp hl
    obtain ⟨ha, hb, hc⟩ := hWF l0 hl0
    refine ⟨?_, ?_, ?_⟩
    · intro c hc2
      exact ha c (List.mem_reverse.mp hc2)
    · intro h10
      exact hb (List.mem_reverse.mp h10)
    · intro hterm
      rw [List.getLast?_reverse]
      exact hhead l0 hl0 hterm
  have hsz' : ∀ l ∈ ls.map fun l => Line.mk l.content.reverse l.term,
      (renderLine l).length ≤ bufSize := by
    intro l hl
    obtain ⟨l0, hl0, rfl⟩ := List.mem_map.mp hl
    have h0 := hsz l0 hl0
    simp only [renderLine, List.length_append] at h0 ⊢
    rw [encAll_length_reverse]
    exact h0
  have h2 := runSeg_render bufSize hbs
    (ls.map fun l => Line.mk l.content.reverse l.term) [] hWF' hfin hsz'
    (by rw [encAll_nil]; simp)
  rw [h2]
  congr 1
  rw [specOut_eq_render_reverse, List.map_map]
  congr 1
  calc ls.map ((fun l => Line.mk l.content.reverse l.term) ∘
        fun l => Line.mk l.content.reverse l.term)
      = ls.map id := List.map_congr_left (by
        intro a _
        cases a
        simp)
    _ = ls := List.map_id ls

/-- Witness for C2 at a concrete input: one line "ab\n" with buffer size 8. -/
theorem C2_involution_amended_witness :
    1 ≤ 8 ∧
    (∀ l ∈ [Line.mk [97, 98] Term.lf], WFLine l) ∧
    (∀ l ∈ [Line.mk [97, 98] Term.lf],
      l.term = Term.lf → l.content.head? ≠ some 13) ∧
    (∀ l ∈ [Line.mk [97, 98] Term.lf], (renderLine l).length ≤ 8) ∧
    (runSeg 8 (render [Line.mk [97, 98] Term.lf] [])).bind (runSeg 8) =
      some (render [Line.mk [97, 98] Term.lf] []) := by
  have hWF : ∀ l ∈ [Line.mk [97, 98] Term.lf], WFLine l := by
    intro l hl
    simp only [List.mem_singleton] at hl
    subst hl
    refine ⟨?_, by decide, by decide⟩
    intro c hc
    unfold ScalarCp
    simp only [List.mem_cons, List.not_mem_nil, or_false] at hc
    rcases hc with h | h <;> subst h <;> omega
  have hhead : ∀ l ∈ [Line.mk [97, 98] Term.lf],
      l.term = Term.lf → l.content.head? ≠ some 13 := by
    intro l hl
    simp only [List.mem_singleton] at hl
    subst hl
    intro _
    decide
  have hsz : ∀ l ∈ [Line.mk [97, 98] Term.lf], (renderLine l).length ≤ 8 := by
    intro l hl
    simp only [List.mem_singleton] at hl
    subst hl
    decide
  exact ⟨by decide, hWF, hhead, hsz,
    C2_involution_amended 8 (by decide) [Line.mk [97, 98] Term.lf] hWF hhead hsz⟩

/-- C4 counterexample: processing the chunk "a\ncd" leaves the carry holding
the pending tail "cd" as raw bytes 63 64 in input order — not already
reversed (64 63) — so the next call begins with a non-empty carry of
unreversed bytes, contradicting the claimed invariant. -/
theorem C4_carry_reversed_cex :
    reverse_segment ⟨[97, 10, 99, 100], 4, 0⟩ ⟨[0, 0, 0, 0], 0, 0⟩
        ⟨[0, 0, 0, 0], 0, 0⟩ =
      some ⟨⟨[97, 10, 99, 100], 2, 0⟩, ⟨[99, 100, 0, 0], 2, 0⟩,
        ⟨[0, 0, 0, 0], 0, 0⟩, ⟨[⟨[97, 10, 99, 100], 2, 0⟩]⟩⟩ ∧
    ([99, 100, 0, 0] : List Nat).take 2 = [99, 100] ∧
    encAll ([99, 100] : List Nat).reverse = [100, 99] ∧
    ([99, 100] : List Nat) ≠ [100, 99] :=
  ⟨by decide, by decide, by decide, by decide⟩

/-- C4 (amended): after a call on a window of whole lines followed by an
LF-free pending tail, the carry holds exactly that tail's raw bytes in input
order; the reversal happens only on a later call, when the line's terminator
arrives or at EOF. -/
theorem C4_carry_holds_raw_tail (seg carry backup : Segment)
    (todo : List Line) (pb : List Nat)
    (hWF : ∀ l ∈ todo, WFLine l) (hpb10 : 10 ∉ pb)
    (hlen : seg.off + seg.len ≤ seg.buff.length)
    (hdata : (seg.buff.drop seg.off).take seg.len =
      (todo.map renderLine).flatten ++ pb)
    (hco : carry.off = 0) (hcl : carry.len = 0)
    (hcap : pb.length ≤ carry.buff.length) :
    ∃ st2, reverse_segment seg carry backup = some st2 ∧
      st2.carry.len = pb.length ∧
      st2.carry.buff.take st2.carry.len = pb := by
  obtain ⟨seg2, carry2, hrun, _, _, _, hclen2, hcdata2, _⟩ :=
    reverse_seg_recent_run seg carry backup [] todo pb hWF hpb10 hlen hdata
      hco hcl hcap
  refine ⟨⟨seg2, carry2, backup, ⟨[] ++ [seg2]⟩⟩, ?_, hclen2, hcdata2⟩
  unfold reverse_segment
  rw [if_neg (by omega)]
  exact hrun

/-- Witness for C4: the chunk "a\ncd" with pending tail "cd". -/
theorem C4_carry_holds_raw_tail_witness :
    (∀ l ∈ [Line.mk [97] Term.lf], WFLine l) ∧
    (10 ∉ ([99, 100] : List Nat)) ∧
    (0 + 4 ≤ ([97, 10, 99, 100] : List Nat).length) ∧
    ((([97, 10, 99, 100] : List Nat).drop 0).take 4 =
      ([Line.mk [97] Term.lf].map renderLine).flatten ++ [99, 100]) ∧
    (2 ≤ ([0, 0, 0, 0] : List Nat).length) ∧
    ∃ st2, reverse_segment ⟨[97, 10, 99, 100], 4, 0⟩ ⟨[0, 0, 0, 0], 0, 0⟩
        ⟨[0, 0, 0, 0], 0, 0⟩ = some st2 ∧
      st2.carry.len = ([99, 100] : List Nat).length ∧
      st2.carry.buff.take st2.carry.len = [99, 100] := by
  have hWF : ∀ l ∈ [Line.mk [97] Term.lf], WFLine l := by
    intro l hl
    simp only [List.mem_singleton] at hl
    subst hl
    refine ⟨?_, by decide, by decide⟩
    intro c hc
    unfold ScalarCp
    simp only [List.mem_cons, List.not_mem_nil, or_false] at hc
    subst hc
    omega
  refine ⟨hWF, by decide, by decide, by decide, by decide, ?_⟩
  exact C4_carry_holds_raw_tail ⟨[97, 10, 99, 100], 4, 0⟩ ⟨[0, 0, 0, 0], 0, 0⟩
    ⟨[0, 0, 0, 0], 0, 0⟩ [Line.mk [97] Term.lf] [99, 100] hWF (by decide)
    (by decide) (by decide) (by decide) (by decide) (by decide)

/-- A list containing 10 splits at the first occurrence of 10. -/
theorem exists_first_10 (l : List Nat) (h : 10 ∈ l) :
    ∃ a b, l = a ++ 10 :: b ∧ 10 ∉ a := by
  induction l with
  | nil => cases h
  | cons x xs ih =>
    by_cases hx : x = 10
    · exact ⟨[], xs, by rw [hx]; rfl, List.not_mem_nil 10⟩
    · have hmem : 10 ∈ xs := by
        rcases List.mem_cons.mp h with h1 | h1
        · exact absurd h1.symm hx
        · exact h1
      obtain ⟨a, b, h1, h2⟩ := ih hmem
      refine ⟨x :: a, b, by rw [h1]; rfl, ?_⟩
      intro hm
      rcases List.mem_cons.mp hm with h3 | h3
      · exact hx h3.symm
      · exact h2 h3

theorem findLF_some_lt (l : List Nat) (i : Nat) (h : findLF l = some i) :
    i < l.length := by
  have h10 : 10 ∈ l := by
    by_contra hn
    rw [(findLF_eq_none_iff l).mpr hn] at h
    cases h
  obtain ⟨a, b, h1, h2⟩ := exists_first_10 l h10
  rw [h1, findLF_append_10 a b h2] at h
  injection h with h
  rw [h1]
  simp only [List.length_append, List.length_cons]
  omega

/-- The driver's invariants persist through any number of processed chunks. -/
theorem stateAfter_invariant (bufSize : Nat) :
    ∀ (k : Nat) (cs : List (List Nat)) (cl : List Nat) (todo : List Line)
      (fin : List Nat) (st st' : RunState),
      GoodStream bufSize cl cs todo fin →
      GoodState bufSize cl st →
      (cs = [] → cl = []) →
      stateAfter cs st k = some st' →
      ∃ cl' todo' fin',
        GoodStream bufSize cl' (cs.drop k) todo' fin' ∧
        GoodState bufSize cl' st' ∧
        (cs.drop k = [] → cl' = []) := by
  intro k
  induction k with
  | zero =>
    intro cs cl todo fin st st' hgs hst hcl hsa
    cases cs with
    | nil =>
      rw [stateAfter] at hsa
      injection hsa with h
      subst h
      exact ⟨cl, todo, fin, hgs, hst, hcl⟩
    | cons c cs2 =>
      rw [stateAfter] at hsa
      injection hsa with h
      subst h
      exact ⟨cl, todo, fin, hgs, hst, hcl⟩
  | succ k ih =>
    intro cs cl todo fin st st' hgs hst hcl hsa
    cases cs with
    | nil =>
      rw [stateAfter] at hsa
      cases hsa
    | cons c cs2 =>
      obtain ⟨seg2, carry2, backup2, job, hrs, cl2, todo2, fin2, hout, hgs2,
        hst2, hcl2⟩ := step_spec bufSize cl c cs2 todo fin st hgs hst
      rw [stateAfter, hrs] at hsa
      dsimp only at hsa
      have hres := ih cs2 cl2 todo2 fin2 ⟨seg2.buff, carry2, backup2⟩ st'
        hgs2 hst2 hcl2 hsa
      simpa using hres

/-- Within one step, the carried prefix plus the chunk's first line prefix
(through its LF) is bounded by the completed line's rendered size. -/
theorem carry_prefix_bound (bufSize : Nat) (cl c : List Nat)
    (cs : List (List Nat)) (todo : List Line) (fin : List Nat) (st : RunState)
    (i : Nat)
    (hgs : GoodStream bufSize cl (c :: cs) todo fin)
    (hst : GoodState bufSize cl st)
    (hfind : findLF c = some i) :
    st.carry.len + (i + 1) ≤ bufSize := by
  obtain ⟨heq, h10cl, hWF, hfin, hsz, hfsz, hcwf⟩ := hgs
  obtain ⟨hib, hcb, hco, hclen, hcdata, hbb, hbl, hbo⟩ := hst
  have hclen_eq : st.carry.len = cl.length := by
    rw [← hcdata]
    simp only [List.length_take]
    omega
  have h10c : 10 ∈ c := by
    by_contra h10
    rw [(findLF_eq_none_iff c).mpr h10] at hfind
    cases hfind
  have heq2 : cl ++ (c ++ cs.flatten) = render todo fin := by
    rw [← heq]
    simp
  by_cases hcl0 : cl = []
  · have hi_lt : i < c.length := findLF_some_lt c i hfind
    have hc_le : c.length ≤ bufSize := hcwf.1
    rw [hclen_eq, hcl0]
    simp only [List.length_nil]
    omega
  · cases todo with
    | nil =>
      exfalso
      rw [render_nil] at heq2
      exact encAll_not_mem_10 fin hfin.1 hfin.2
        (heq2 ▸ (List.mem_append.mpr (Or.inr (List.mem_append.mpr
          (Or.inl h10c)))))
    | cons l₁ todo₂ =>
      rw [render_cons] at heq2
      obtain ⟨P, hP1, hP2, hX⟩ := head_prefix_of_line cl (c ++ cs.flatten)
        (render todo₂ fin) l₁ h10cl heq2
      have hWFl₁ : WFLine l₁ := hWF l₁ (by simp)
      obtain ⟨Pb, hPb1, hPb10⟩ := line_remainder_structure cl P l₁ hWFl₁ hP1 hP2
      rw [hPb1] at hX
      have hX2 : c ++ cs.flatten = Pb ++ (10 :: render todo₂ fin) := by
        rw [hX]; simp
      obtain ⟨z', hz1, hz2⟩ :
          ∃ z', c = Pb ++ 10 :: z' ∧ render todo₂ fin = z' ++ cs.flatten := by
        rcases List.append_eq_append_iff.mp hX2 with ⟨a, ha1, ha2⟩ | ⟨z, hzz1, hzz2⟩
        · exact absurd (ha1 ▸ List.mem_append.mpr (Or.inl h10c)) hPb10
        · cases z with
          | nil =>
            rw [List.append_nil] at hzz1
            exact absurd (hzz1 ▸ h10c) hPb10
          | cons w z' =>
            simp only [List.cons_append] at hzz2
            injection hzz2 with hw htail
            exact ⟨z', by rw [hzz1, ← hw], htail⟩
      have hfind2 : findLF c = some Pb.length := by
        rw [hz1]
        exact findLF_append_10 Pb z' hPb10
      rw [hfind2] at hfind
      injection hfind with hi
      have hrl₁le : (renderLine l₁).length ≤ bufSize := hsz l₁ (by simp)
      have hlenP := congrArg List.length hP1
      have hlenPb := congrArg List.length hPb1
      simp only [List.length_append, List.length_cons,
        List.length_nil] at hlenP hlenPb
      omega

/-- C9: when every input line (content plus terminator) fits within
`buf_size` bytes, then at every call of `reverse_segment` made by the driver,
the prefix attachment stays within the carry buffer's capacity: the carried
length plus the prefix through the chunk's first LF is at most `buf_size`, so
no write goes past the end of the carry buffer. -/
theorem C9_carry_append_fits (bufSize : Nat) (hbs : 1 ≤ bufSize)
    (ls : List Line) (fin : List Nat)
    (hWF : ∀ l ∈ ls, WFLine l) (hfin : WFFinal fin)
    (hsz : ∀ l ∈ ls, (renderLine l).length ≤ bufSize)
    (hfsz : (encAll fin).length ≤ bufSize)
    (k : Nat) (st : RunState) (c : List Nat) (cs : List (List Nat)) (i : Nat)
    (hst : stateAfter (chunksOf bufSize (render ls fin) ++ [[]])
      (initState bufSize) k = some st)
    (hrest : (chunksOf bufSize (render ls fin) ++ [[]]).drop k = c :: cs)
    (hfind : findLF c = some i) :
    st.carry.len + (i + 1) ≤ bufSize := by
  have hgs0 : GoodStream bufSize []
      (chunksOf bufSize (render ls fin) ++ [[]]) ls fin := by
    refine ⟨?_, by simp, hWF, hfin, hsz, hfsz,
      chunksOf_wf bufSize hbs (render ls fin).length (render ls fin) le_rfl⟩
    rw [List.nil_append, List.flatten_append,
      chunksOf_flatten bufSize hbs (render ls fin).length (render ls fin) le_rfl]
    simp
  have hst0 : GoodState bufSize [] (initState bufSize) :=
    ⟨by simp [initState], by simp [initState], rfl, by simp [initState],
      by simp [initState], by simp [initState], rfl, rfl⟩
  obtain ⟨cl', todo', fin', hgs', hst', hcl'⟩ :=
    stateAfter_invariant bufSize k (chunksOf bufSize (render ls fin) ++ [[]])
      [] ls fin (initState bufSize) st hgs0 hst0
      (fun h => absurd (List.append_eq_nil.mp h).2 (by simp)) hst
  rw [hrest] at hgs'
  exact carry_prefix_bound bufSize cl' c cs todo' fin' st i hgs' hst' hfind

/-- Witness for C9: two lines "abc\n", "d\n" with buffer size 5; after one
chunk the carry holds "d" and the next chunk's LF is at index 0. -/
theorem C9_carry_append_fits_witness :
    1 ≤ 5 ∧
    (∀ l ∈ [Line.mk [97, 98, 99] Term.lf, Line.mk [100] Term.lf], WFLine l) ∧
    WFFinal ([] : List Nat) ∧
    (∀ l ∈ [Line.mk [97, 98, 99] Term.lf, Line.mk [100] Term.lf],
      (renderLine l).length ≤ 5) ∧
    (encAll ([] : List Nat)).length ≤ 5 ∧
    stateAfter (chunksOf 5 (render
        [Line.mk [97, 98, 99] Term.lf, Line.mk [100] Term.lf] []) ++ [[]])
      (initState 5) 1 =
      some ⟨[99, 98, 97, 10, 100], ⟨[100, 0, 0, 0, 0], 1, 0⟩,
        ⟨[0, 0, 0, 0, 0], 0, 0⟩⟩ ∧
    (chunksOf 5 (render
        [Line.mk [97, 98, 99] Term.lf, Line.mk [100] Term.lf] []) ++
      [[]]).drop 1 = [[10], []] ∧
    findLF [10] = some 0 ∧
    (⟨[99, 98, 97, 10, 100], ⟨[100, 0, 0, 0, 0], 1, 0⟩,
      ⟨[0, 0, 0, 0, 0], 0, 0⟩⟩ : RunState).carry.len + (0 + 1) ≤ 5 := by
  have hWF : ∀ l ∈ [Line.mk [97, 98, 99] Term.lf, Line.mk [100] Term.lf],
      WFLine l := by
    intro l hl
    simp only [List.mem_cons, List.not_mem_nil, or_false] at hl
    rcases hl with h | h <;> subst h <;>
      refine ⟨?_, by decide, by decide⟩ <;>
      · intro c hc
        unfold ScalarCp
        simp only [List.mem_cons, List.not_mem_nil, or_false] at hc
        first
        | (rcases hc with h | h | h <;> subst h <;> omega)
        | (subst hc; omega)
  have hfin : WFFinal ([] : List Nat) :=
    ⟨fun c hc => absurd hc (List.not_mem_nil c), List.not_mem_nil 10⟩
  have hsz : ∀ l ∈ [Line.mk [97, 98, 99] Term.lf, Line.mk [100] Term.lf],
      (renderLine l).length ≤ 5 := by
    intro l hl
    simp only [List.mem_cons, List.not_mem_nil, or_false] at hl
    rcases hl with h | h <;> subst h <;> decide
  refine ⟨by decide, hWF, hfin, hsz, by decide, by decide, by decide,
    by decide, ?_⟩
  exact C9_carry_append_fits 5 (by decide)
    [Line.mk [97, 98, 99] Term.lf, Line.mk [100] Term.lf] [] hWF hfin hsz
    (by decide) 1
    ⟨[99, 98, 97, 10, 100], ⟨[100, 0, 0, 0, 0], 1, 0⟩, ⟨[0, 0, 0, 0, 0], 0, 0⟩⟩
    [10] [[]] 0 (by decide) (by decide) (by decide)

/-! ## The SPSC lock-free queue (`src/unnamed/part_005`, class `SPSC_LFQ`)

The queue stores `cap` slots (`cap` a power of two, at least 2) and two
indices that are always kept masked, i.e. strictly below `cap`.  `push`
computes `(write + 1) & mask_`; if that equals `read_` it reports Full,
otherwise it stores the item at `queue_[write]` and publishes the new write
index.  `pop` reports empty when `read_ == write_`, otherwise it reads
`queue_[read]` and advances the read index.  Under the single-producer /
single-consumer contract any interleaving is a sequential interleaving, so
the model below applies the operations in sequence. -/

structure SPSC (α : Type) where
  cap : Nat
  queue : List α
  write : Nat
  read : Nat

def qpush {α : Type} (q : SPSC α) (item : α) : Bool × SPSC α :=
  let write := q.write
  let write_next := (write + 1) &&& (q.cap - 1)
  if write_next == q.read then (false, q)
  else (true, ⟨q.cap, q.queue.set write item, write_next, q.read⟩)

def qpop {α : Type} [Inhabited α] (q : SPSC α) : Option (α × SPSC α) :=
  let read := q.read
  if read == q.write then none
  else some (q.queue.getD read default,
    ⟨q.cap, q.queue, q.write, (read + 1) &&& (q.cap - 1)⟩)

/-- The queue's structural invariant: power-of-two capacity of at least 2,
a full slot array, and masked (in-range) indices. -/
def QWF {α : Type} (k : Nat) (q : SPSC α) : Prop :=
  q.cap = 2 ^ k ∧ 1 ≤ k ∧ q.queue.length = q.cap ∧
  q.write < q.cap ∧ q.read < q.cap

/-- Number of elements currently held. -/
def qcount {α : Type} (q : SPSC α) : Nat :=
  if q.read ≤ q.write then q.write - q.read else q.cap + q.write - q.read

/-- The slot array rotated so that the read index comes first. -/
def qrot {α : Type} (q : SPSC α) : List α :=
  q.queue.drop q.read ++ q.queue.take q.read

/-- The elements currently held, oldest first. -/
def qcontents {α : Type} (q : SPSC α) : List α :=
  (qrot q).take (qcount q)

theorem mask_succ (k i : Nat) (h : i < 2 ^ k) :
    (i + 1) &&& (2 ^ k - 1) = if i + 1 = 2 ^ k then 0 else i + 1 := by
  rw [Nat.and_pow_two_sub_one_eq_mod]
  by_cases hc : i + 1 = 2 ^ k
  · rw [if_pos hc, hc, Nat.mod_self]
  · rw [if_neg hc, Nat.mod_eq_of_lt (by omega)]

theorem qcount_lt {α : Type} (k : Nat) (q : SPSC α) (h : QWF k q) :
    qcount q < q.cap := by
  obtain ⟨hc, hk, hl, hw, hr⟩ := h
  unfold qcount
  split_ifs <;> omega

theorem qrot_length {α : Type} (q : SPSC α) (h : q.read ≤ q.queue.length) :
    (qrot q).length = q.queue.length := by
  unfold qrot
  simp only [List.length_append, List.length_drop, List.length_take]
  omega

theorem take_set_succ {α : Type} (l : List α) (n : Nat) (x : α)
    (h : n < l.length) :
    (l.set n x).take (n + 1) = l.take n ++ [x] := by
  rw [List.set_eq_take_append_cons_drop, if_pos h,
    List.take_append_eq_append_take]
  have h1 : (l.take n).length = n := by
    rw [List.length_take]
    omega
  rw [List.take_of_length_le (by omega), h1]
  rw [show n + 1 - n = 1 from by omega]
  simp

/-- Setting a slot commutes with the rotation: slot `w` sits at offset
`w - r` (or `len + w - r` past the wrap) of the rotated array. -/
theorem rot_set {α : Type} (L : List α) (r w : Nat) (x : α)
    (hr : r < L.length) (hw : w < L.length) :
    (L.set w x).drop r ++ (L.set w x).take r =
      (L.drop r ++ L.take r).set
        (if r ≤ w then w - r else L.length + w - r) x := by
  by_cases hrw : r ≤ w
  · rw [if_pos hrw]
    have h1 : (L.set w x).drop r = (L.drop r).set (w - r) x := by
      rw [List.drop_set, if_neg (by omega)]
    have h2 : (L.set w x).take r = L.take r := by
      rw [List.set_eq_take_append_cons_drop, if_pos hw,
        List.take_append_eq_append_take, List.take_take,
        show min r w = r from by omega]
      have h3 : (L.take w).length = w := by
        rw [List.length_take]; omega
      rw [h3, show r - w = 0 from by omega]
      simp
    rw [h1, h2, List.set_append, if_pos (by
      simp only [List.length_drop]
      omega)]
  · rw [if_neg hrw]
    have h1 : (L.set w x).drop r = L.drop r := by
      rw [List.drop_set, if_pos (by omega)]
    have h2 : (L.set w x).take r = (L.take r).set w x := by
      rw [List.set_eq_take_append_cons_drop, if_pos hw,
        List.take_append_eq_append_take, List.take_take,
        show min r w = w from by omega]
      have h3 : (L.take w).length = w := by
        rw [List.length_take]; omega
      rw [h3, show r - w = (r - w - 1) + 1 from by omega, List.take_succ_cons]
      rw [List.set_eq_take_append_cons_drop, if_pos (by
        rw [List.length_take]; omega)]
      rw [List.take_take, show min w r = w from by omega, List.drop_take]
      rw [show r - (w + 1) = r - w - 1 from by omega]
    rw [h1, h2, List.set_append, if_neg (by
      simp only [List.length_drop]
      omega)]
    have h4 : L.length + w - r - (L.drop r).length = w := by
      simp only [List.length_drop]
      omega
    rw [h4]

/-- `push` behaviour: Full exactly when `count = cap - 1`; otherwise the item
is appended to the held elements. -/
theorem qpush_spec {α : Type} (k : Nat) (q : SPSC α) (x : α) (h : QWF k q) :
    (qcount q = q.cap - 1 → qpush q x = (false, q)) ∧
    (qcount q < q.cap - 1 →
      (qpush q x).1 = true ∧
      QWF k (qpush q x).2 ∧
      qcontents (qpush q x).2 = qcontents q ++ [x] ∧
      qcount (qpush q x).2 = qcount q + 1 ∧
      (qpush q x).2.cap = q.cap) := by
  obtain ⟨hc, hk, hl, hw, hr⟩ := h
  have hc2 : 2 ≤ q.cap := by
    rw [hc]
    calc 2 = 2 ^ 1 := rfl
    _ ≤ 2 ^ k := Nat.pow_le_pow_right (by omega) hk
  have hmask := mask_succ k q.write (by omega)
  rw [← hc] at hmask
  have hfull : (((q.write + 1) &&& (q.cap - 1)) == q.read) = true ↔
      qcount q = q.cap - 1 := by
    rw [beq_iff_eq, hmask]
    unfold qcount
    split_ifs <;> constructor <;> intro h2 <;> omega
  constructor
  · intro hcnt
    unfold qpush
    rw [if_pos (hfull.mpr hcnt)]
  · intro hcnt
    have hnf : ¬((((q.write + 1) &&& (q.cap - 1)) == q.read) = true) := by
      intro h2
      have := hfull.mp h2
      omega
    have hwn : (q.write + 1) &&& (q.cap - 1) =
        if q.write + 1 = q.cap then 0 else q.write + 1 := hmask
    have hwnlt : ((q.write + 1) &&& (q.cap - 1)) < q.cap := by
      rw [hwn]
      split_ifs <;> omega
    have hne : ((q.write + 1) &&& (q.cap - 1)) ≠ q.read := by
      intro h2
      exact hnf (beq_iff_eq.mpr h2)
    unfold qpush qcontents qcount qrot
    rw [if_neg hnf]
    dsimp only
    refine ⟨rfl, ⟨hc, hk, by simpa using hl, hwnlt, hr⟩, ?_, ?_, rfl⟩
    · -- contents gain the pushed item at the end
      have hrs := rot_set q.queue q.read q.write x (by omega) (by omega)
      rw [hl] at hrs
      rw [hrs]
      rw [hwn] at hne
      have hcount1 : (if q.read ≤ ((q.write + 1) &&& (q.cap - 1)) then
          ((q.write + 1) &&& (q.cap - 1)) - q.read
          else q.cap + ((q.write + 1) &&& (q.cap - 1)) - q.read) =
          (if q.read ≤ q.write then q.write - q.read
            else q.cap + q.write - q.read) + 1 := by
        rw [hwn]
        unfold qcount at hcnt
        by_cases hwcap : q.write + 1 = q.cap
        · rw [if_pos hwcap] at hne ⊢
          split_ifs at hcnt ⊢ <;> omega
        · rw [if_neg hwcap] at hne ⊢
          split_ifs at hcnt ⊢ <;> omega
      rw [hcount1]
      apply take_set_succ
      have := qrot_length q (by omega)
      unfold qrot at this
      rw [this, hl]
      have hle : (if q.read ≤ q.write then q.write - q.read
          else q.cap + q.write - q.read) = qcount q := rfl
      rw [hle]
      exact qcount_lt k q ⟨hc, hk, hl, hw, hr⟩
    · -- the count grows by one
      rw [hwn]
      rw [hwn] at hne
      unfold qcount at hcnt
      by_cases hwcap : q.write + 1 = q.cap
      · rw [if_pos hwcap] at hne ⊢
        split_ifs at hcnt ⊢ <;> omega
      · rw [if_neg hwcap] at hne ⊢
        split_ifs at hcnt ⊢ <;> omega

/-- `pop` behaviour: empty exactly when `count = 0`; otherwise the oldest
held element is returned and removed. -/
theorem qpop_spec {α : Type} [Inhabited α] (k : Nat) (q : SPSC α)
    (h : QWF k q) :
    (qcount q = 0 → qpop q = none) ∧
    (0 < qcount q →
      qpop q = some (q.queue.getD q.read default,
        ⟨q.cap, q.queue, q.write, (q.read + 1) &&& (q.cap - 1)⟩) ∧
      QWF k (⟨q.cap, q.queue, q.write,
        (q.read + 1) &&& (q.cap - 1)⟩ : SPSC α) ∧
      qcontents q = q.queue.getD q.read default ::
        qcontents (⟨q.cap, q.queue, q.write,
          (q.read + 1) &&& (q.cap - 1)⟩ : SPSC α) ∧
      qcount (⟨q.cap, q.queue, q.write,
        (q.read + 1) &&& (q.cap - 1)⟩ : SPSC α) = qcount q - 1) := by
  obtain ⟨hc, hk, hl, hw, hr⟩ := h
  have hc2 : 2 ≤ q.cap := by
    rw [hc]
    calc 2 = 2 ^ 1 := rfl
    _ ≤ 2 ^ k := Nat.pow_le_pow_right (by omega) hk
  have hmask := mask_succ k q.read (by omega)
  rw [← hc] at hmask
  constructor
  · intro hcnt
    have hrw : q.read = q.write := by
      unfold qcount at hcnt
      split_ifs at hcnt <;> omega
    unfold qpop
    rw [if_pos (beq_iff_eq.mpr hrw)]
  · intro hcnt
    have hrw : q.read ≠ q.write := by
      intro h2
      unfold qcount at hcnt
      rw [h2] at hcnt
      simp at hcnt
    have hrnlt : ((q.read + 1) &&& (q.cap - 1)) < q.cap := by
      rw [hmask]
      split_ifs <;> omega
    refine ⟨?_, ⟨hc, hk, hl, hw, hrnlt⟩, ?_, ?_⟩
    · unfold qpop
      rw [if_neg (by
        intro h2
        exact hrw (beq_iff_eq.mp h2))]
    · -- the popped value heads the held elements
      have hv : q.queue.getD q.read default = q.queue.get ⟨q.read, by omega⟩ := by
        rw [List.getD_eq_getElem?_getD, List.getElem?_eq_getElem (by omega)]
        rfl
      have hdropr : q.queue.drop q.read =
          q.queue.get ⟨q.read, by omega⟩ :: q.queue.drop (q.read + 1) := by
        rw [List.drop_eq_getElem_cons (by omega)]
        rfl
      have hM : qrot q = q.queue.getD q.read default ::
          (q.queue.drop (q.read + 1) ++ q.queue.take q.read) := by
        unfold qrot
        rw [hdropr, hv]
        rfl
      have hMlen : (q.queue.drop (q.read + 1) ++ q.queue.take q.read).length =
          q.cap - 1 := by
        simp only [List.length_append, List.length_drop, List.length_take]
        omega
      have hrot2 : qrot (⟨q.cap, q.queue, q.write,
          (q.read + 1) &&& (q.cap - 1)⟩ : SPSC α) =
          (q.queue.drop (q.read + 1) ++ q.queue.take q.read) ++
            [q.queue.getD q.read default] := by
        unfold qrot
        dsimp only
        rw [hmask]
        by_cases hwrap : q.read + 1 = q.cap
        · rw [if_pos hwrap]
          simp only [List.drop_zero, List.take_zero, List.append_nil]
          have hdc : q.queue.drop (q.read + 1) = [] := by
            apply List.drop_eq_nil_of_le
            omega
          rw [hdc, List.nil_append]
          have htr : q.queue.take q.read ++ [q.queue.getD q.read default] =
              q.queue.take q.read ++ q.queue.drop q.read := by
            rw [hdropr, hv]
            have hde : q.queue.drop (q.read + 1) = [] := hdc
            rw [hde]
          rw [htr, List.take_append_drop]
        · rw [if_neg hwrap]
          rw [List.take_succ, List.getElem?_eq_getElem (by omega)]
          rw [hv, List.append_assoc]
          rfl
      have hcount2 : qcount (⟨q.cap, q.queue, q.write,
          (q.read + 1) &&& (q.cap - 1)⟩ : SPSC α) = qcount q - 1 := by
        unfold qcount
        dsimp only
        rw [hmask]
        unfold qcount at hcnt
        split_ifs at hcnt ⊢ <;> omega
      unfold qcontents
      rw [hM, hrot2, hcount2]
      obtain ⟨m, hm⟩ : ∃ m, qcount q = m + 1 := ⟨qcount q - 1, by omega⟩
      rw [hm]
      simp only [Nat.add_sub_cancel]
      have hmle : m ≤ q.cap - 1 := by
        have := qcount_lt k q ⟨hc, hk, hl, hw, hr⟩
        omega
      rw [List.take_succ_cons]
      congr 1
      exact (List.take_append_of_le_length (by rw [hMlen]; omega)).symm
    · unfold qcount
      dsimp only
      rw [hmask]
      unfold qcount at hcnt
      split_ifs at hcnt ⊢ <;> omega

/-- One sequential interleaving step: a push of `x` or a pop. -/
inductive QOp (α : Type) where
  | push (x : α) : QOp α
  | pop : QOp α

/-- Run a sequence of operations; return the final queue, the accepted
(pushed) items in order, and the popped items in order. -/
def runQueue {α : Type} [Inhabited α] :
    List (QOp α) → SPSC α → SPSC α × List α × List α
  | [], q => (q, [], [])
  | QOp.push x :: ops, q =>
    let r := qpush q x
    let rest := runQueue ops r.2
    (rest.1, (if r.1 then x :: rest.2.1 else rest.2.1), rest.2.2)
  | QOp.pop :: ops, q =>
    match qpop q with
    | none => runQueue ops q
    | some (v, q2) =>
      let rest := runQueue ops q2
      (rest.1, rest.2.1, v :: rest.2.2)

/-- Trace invariant: held-before plus accepted pushes equals pops plus
held-after, and the invariant persists. -/
theorem runQueue_spec {α : Type} [Inhabited α] (k : Nat) :
    ∀ (ops : List (QOp α)) (q : SPSC α), QWF k q →
      QWF k (runQueue ops q).1 ∧
      (runQueue ops q).1.cap = q.cap ∧
      qcontents q ++ (runQueue ops q).2.1 =
        (runQueue ops q).2.2 ++ qcontents (runQueue ops q).1 := by
  intro ops
  induction ops with
  | nil =>
    intro q h
    exact ⟨h, rfl, by simp [runQueue]⟩
  | cons op ops ih =>
    intro q h
    cases op with
    | push x =>
      by_cases hfull : qcount q = q.cap - 1
      · have hpf := (qpush_spec k q x h).1 hfull
        have := ih q h
        rw [runQueue, hpf]
        dsimp only
        rw [if_neg (by simp)]
        exact this
      · have hcnt : qcount q < q.cap - 1 := by
          have := qcount_lt k q h
          omega
        obtain ⟨hok, hwf2, hcont2, hcnt2, hcap2⟩ := (qpush_spec k q x h).2 hcnt
        obtain ⟨hwf3, hcap3, htrace⟩ := ih (qpush q x).2 hwf2
        rw [runQueue]
        dsimp only
        rw [if_pos hok]
        refine ⟨hwf3, by rw [hcap3, hcap2], ?_⟩
        dsimp only
        rw [show qcontents q ++ x ::
            (runQueue ops (qpush q x).2).2.1 =
            (qcontents q ++ [x]) ++ (runQueue ops (qpush q x).2).2.1 from by
          simp, ← hcont2]
        exact htrace
    | pop =>
      by_cases hempty : qcount q = 0
      · have hpn := (qpop_spec k q h).1 hempty
        have := ih q h
        rw [runQueue, hpn]
        exact this
      · have hcnt : 0 < qcount q := by omega
        obtain ⟨hps, hwf2, hcont2, hcnt2⟩ := (qpop_spec k q h).2 hcnt
        obtain ⟨hwf3, hcap3, htrace⟩ :=
          ih (⟨q.cap, q.queue, q.write, (q.read + 1) &&& (q.cap - 1)⟩ : SPSC α)
            hwf2
        rw [runQueue, hps]
        dsimp only
        refine ⟨hwf3, hcap3, ?_⟩
        rw [hcont2]
        rw [List.cons_append, htrace]
        rfl

/-- C8: for the SPSC queue with power-of-two capacity `Q ≥ 2`, starting
empty, any sequential interleaving of `push` and `pop` (the SPSC contract)
pops exactly the successfully pushed elements in push order — the popped
sequence followed by the elements still held equals the accepted push
sequence — the number of held elements never exceeds `Q - 1`, and a push is
refused (Full) precisely when `Q - 1` elements are held. -/
theorem C8_spsc_fifo (α : Type) [Inhabited α] (k : Nat) (q0 : SPSC α)
    (h : QWF k q0) (hempty : q0.read = q0.write) (ops : List (QOp α)) :
    (runQueue ops q0).2.2 ++ qcontents (runQueue ops q0).1 =
      (runQueue ops q0).2.1 ∧
    qcount (runQueue ops q0).1 ≤ q0.cap - 1 ∧
    (∀ x : α, (qpush (runQueue ops q0).1 x).1 = false ↔
      qcount (runQueue ops q0).1 = q0.cap - 1) := by
  obtain ⟨hwf1, hcap1, htrace⟩ := runQueue_spec k ops q0 h
  have hc0 : qcontents q0 = [] := by
    unfold qcontents qcount
    rw [hempty]
    simp
  rw [hc0, List.nil_append] at htrace
  have hlt := qcount_lt k (runQueue ops q0).1 hwf1
  refine ⟨htrace.symm, by omega, ?_⟩
  intro x
  constructor
  · intro hfalse
    by_contra hne
    have hcnt : qcount (runQueue ops q0).1 < (runQueue ops q0).1.cap - 1 := by
      rw [hcap1]
      omega
    have := ((qpush_spec k (runQueue ops q0).1 x hwf1).2 hcnt).1
    rw [this] at hfalse
    cases hfalse
  · intro heq
    have := (qpush_spec k (runQueue ops q0).1 x hwf1).1 (by rw [hcap1]; exact heq)
    rw [this]

/-- Witness for C8: capacity 2, pushes of 5 and 6 (the second refused), then
a pop returning 5. -/
theorem C8_spsc_fifo_witness :
    QWF 1 (⟨2, [0, 0], 0, 0⟩ : SPSC Nat) ∧
    (⟨2, [0, 0], 0, 0⟩ : SPSC Nat).read = (⟨2, [0, 0], 0, 0⟩ : SPSC Nat).write ∧
    ((runQueue [QOp.push 5, QOp.push 6, QOp.pop]
        (⟨2, [0, 0], 0, 0⟩ : SPSC Nat)).2.2 ++
      qcontents (runQueue [QOp.push 5, QOp.push 6, QOp.pop]
        (⟨2, [0, 0], 0, 0⟩ : SPSC Nat)).1 =
      (runQueue [QOp.push 5, QOp.push 6, QOp.pop]
        (⟨2, [0, 0], 0, 0⟩ : SPSC Nat)).2.1 ∧
    qcount (runQueue [QOp.push 5, QOp.push 6, QOp.pop]
        (⟨2, [0, 0], 0, 0⟩ : SPSC Nat)).1 ≤
      (⟨2, [0, 0], 0, 0⟩ : SPSC Nat).cap - 1 ∧
    (∀ x : Nat, (qpush (runQueue [QOp.push 5, QOp.push 6, QOp.pop]
        (⟨2, [0, 0], 0, 0⟩ : SPSC Nat)).1 x).1 = false ↔
      qcount (runQueue [QOp.push 5, QOp.push 6, QOp.pop]
        (⟨2, [0, 0], 0, 0⟩ : SPSC Nat)).1 =
        (⟨2, [0, 0], 0, 0⟩ : SPSC Nat).cap - 1)) := by
  have hwf : QWF 1 (⟨2, [0, 0], 0, 0⟩ : SPSC Nat) :=
    ⟨rfl, le_refl 1, rfl, by decide, by decide⟩
  exact ⟨hwf, rfl,
    C8_spsc_fifo Nat 1 ⟨2, [0, 0], 0, 0⟩ hwf rfl
      [QOp.push 5, QOp.push 6, QOp.pop]⟩

end FileReverser
